import Mathlib

/-!
DJ mixing trainer: arithmetic core of `src/main.js`

A shallow embedding of the stateless arithmetic of the two-deck trainer
(crossfade law, level meter, loop tiling, nudge, phase sync, key compatibility)
together with the properties proved about it.

JavaScript numbers are modelled at two levels. The exact level drops the rounding:
the transcendental functions (`Math.cos`, `Math.sqrt`, `Math.log10`) live over `ℝ`, the
purely rational code is written over an arbitrary floor-ordered field `α`, so that it
runs on `ℚ` and the theorems hold on `ℝ` as well. Where a rounding can change a
discrete result (the loop tile picked by `Math.floor`, the two decimals kept by
`toFixed`), the functions are given a second time with every operation followed by a
rounding `fl`; `roundDouble` is the rounding of IEEE 754 binary64, and `fl = id` gives
the exact level back.
-/

namespace DJTrainer

/-! ## Numeric helpers -/

/-- `const clamp = (v, a, b) => Math.min(b, Math.max(a, v));` (main.js line 4). -/
def clamp {α : Type} [LinearOrder α] (v a b : α) : α := min b (max a v)

/-- `const dbToGain = (db) => Math.pow(10, db / 20);` (main.js line 3). -/
noncomputable def dbToGain (db : ℝ) : ℝ := (10 : ℝ) ^ (db / 20)

/-! ## Level meter -/

/-- `Meter.getLevel()` (lines 15-27) on the byte window `getByteTimeDomainData` has
filled in. -/
noncomputable def Meter.getLevel (data : List ℕ) : ℝ :=
  let sum := data.foldl (fun (sum : ℝ) (x : ℕ) => let v := ((x : ℝ) - 128) / 128; sum + v * v) 0
  let rms := Real.sqrt (sum / (data.length : ℝ))
  let db := 20 * Real.logb 10 (rms + 1e-6)
  let norm := clamp ((db + 60) / 60) 0 1
  norm

/-- The root mean square of the centred, normalised samples `(d[i] - 128) / 128`, as
the level-meter formula words it. -/
noncomputable def rootMeanSquare (d : List ℕ) : ℝ :=
  Real.sqrt ((d.map (fun (x : ℕ) => (((x : ℝ) - 128) / 128) ^ 2)).sum / (d.length : ℝ))

/-! ## Crossfader -/

/-- `function constantPower(x)` (main.js lines 30-36): the pair of gains `[a, b]`. -/
noncomputable def constantPower (x : ℝ) : ℝ × ℝ :=
  let t := (x + 1) / 2
  let a := Real.cos (t * Real.pi / 2)
  let b := Real.cos ((1 - t) * Real.pi / 2)
  (a, b)

/-! ## Deck transport: loop, tempo, nudge, sync -/

/-- The JavaScript idiom `v || d` on numbers: a falsy `v` (zero; `NaN` is outside the
model) yields the default `d`. -/
def orDefault {α : Type} [LinearOrderedField α] (v d : α) : α :=
  if v = 0 then d else v

/-- Rounding toward zero, the integer quotient used by the `%` operator. -/
def trunc {α : Type} [LinearOrderedField α] [FloorRing α] (x : α) : ℤ :=
  if 0 ≤ x then ⌊x⌋ else ⌈x⌉

/-- The JavaScript remainder `a % b` on numbers (for `b ≠ 0`): `a - b * trunc (a / b)`,
which carries the sign of the dividend. -/
def jsMod {α : Type} [LinearOrderedField α] [FloorRing α] (a b : α) : α :=
  a - b * (trunc (a / b) : α)

/-- `Number.prototype.toFixed(2)` read back as a number: the magnitude is rounded to
the nearest hundredth (ties to the larger one) and the sign is restored. -/
def toFixed2 {α : Type} [LinearOrderedField α] [FloorRing α] (x : α) : α :=
  if x < 0 then -((⌊(-x) * 100 + 1 / 2⌋ : ℤ) : α) / 100
  else ((⌊x * 100 + 1 / 2⌋ : ℤ) : α) / 100

/-- The part of a `Deck` (main.js lines 81-315) that the transport arithmetic reads and
writes. `currentTime`, `loop4`, `loop`, `loopStart`, `loopEnd`, `userRate`,
`nudgeRate` and `playbackRate` are the properties of `this.audio` (`_loop4`,
`_userRate`, `_nudgeRate` in the source); `tempo` is `parseFloat(this.ui.tempo.value)`
with `none` for `NaN`; `pending` holds the identifiers and delays (ms) of the
scheduled nudge-reset callbacks and `nextTimer` is the next identifier `setTimeout`
hands out. An `Option` field is `none` while the source property is `undefined`
or `null`. -/
structure Deck (α : Type) where
  bpm : α
  beat1 : α
  currentTime : α
  loop4 : Bool
  loop : Bool
  loopStart : Option α
  loopEnd : Option α
  tempo : Option α
  userRate : Option α
  nudgeRate : Option α
  playbackRate : α
  nudgeTimeout : Option ℕ
  pending : List (ℕ × ℕ)
  nextTimer : ℕ

/-- The state the `Deck` constructor leaves behind (lines 131-134), for a tempo slider
whose initial value reads `tempo0`. -/
def Deck.init {α : Type} [LinearOrderedField α] (tempo0 : Option α) : Deck α :=
  { bpm := 128, beat1 := 0, currentTime := 0, loop4 := false, loop := false,
    loopStart := none, loopEnd := none, tempo := tempo0, userRate := none,
    nudgeRate := none, playbackRate := 1, nudgeTimeout := none, pending := [],
    nextTimer := 0 }

/-- `get secondsPerBeat() { return 60 / (this.bpm || 120); }` (line 245). -/
def Deck.secondsPerBeat {α : Type} [LinearOrderedField α] (d : Deck α) : α :=
  60 / orDefault d.bpm 120

/-- `updateLoop()` (lines 246-256) in exact arithmetic; `Deck.updateLoopFl` below adds the
rounding of every operation, which decides the tile when the quotient is within rounding
of an integer. -/
def Deck.updateLoop {α : Type} [LinearOrderedField α] [FloorRing α] (d : Deck α) : Deck α :=
  if !d.loop4 then d
  else
    let spb := d.secondsPerBeat
    let len := 4 * spb
    let now := d.currentTime
    let rel := max 0 (now - d.beat1)
    let start := d.beat1 + ((⌊rel / len⌋ : ℤ) : α) * len
    { d with loop := true, loopStart := some start, loopEnd := some (start + len) }

/-- `toggleLoop4()` (lines 257-268), without the button and LED updates. -/
def Deck.toggleLoop4 {α : Type} [LinearOrderedField α] [FloorRing α] (d : Deck α) : Deck α :=
  let d1 := { d with loop4 := !d.loop4 }
  if d1.loop4 then d1.updateLoop else { d1 with loop := false }

/-- `updatePlaybackRate()` (lines 269-277), without the read-out text and the skin
fader. -/
def Deck.updatePlaybackRate {α : Type} [LinearOrderedField α] (d : Deck α) : Deck α :=
  let pct := orDefault (d.tempo.getD 0) 0
  let rate := 1 + pct / 100
  let nudge := orDefault (d.nudgeRate.getD 0) 1
  { d with userRate := some rate, playbackRate := rate * nudge }

/-- `clearTimeout(id)`: the callback registered under `id`, if still pending, is
dropped. -/
def Deck.clearTimeout {α : Type} (d : Deck α) (id : Option ℕ) : Deck α :=
  match id with
  | none => d
  | some i => { d with pending := d.pending.filter (fun p => p.1 != i) }

/-- `nudge(dir)` (lines 278-286): the reset callback is scheduled 300 ms ahead. -/
def Deck.nudge {α : Type} [LinearOrderedField α] (dir : α) (d : Deck α) : Deck α :=
  let amt := 2 / 100 * dir
  let d1 := d.clearTimeout d.nudgeTimeout
  let d2 := Deck.updatePlaybackRate { d1 with nudgeRate := some (1 + amt) }
  { d2 with nudgeTimeout := some d2.nextTimer,
            pending := d2.pending ++ [(d2.nextTimer, 300)],
            nextTimer := d2.nextTimer + 1 }

/-- The body of the callback `nudge` schedules (line 284). -/
def Deck.nudgeReset {α : Type} [LinearOrderedField α] (d : Deck α) : Deck α :=
  Deck.updatePlaybackRate { d with nudgeRate := some 1 }

/-- The event loop running the timer `id`: a pending callback is removed from the
queue and executed, a cleared or already executed one does nothing. -/
def Deck.fireTimeout {α : Type} [LinearOrderedField α] (id : ℕ) (d : Deck α) : Deck α :=
  if d.pending.any (fun p => p.1 == id) then
    Deck.nudgeReset { d with pending := d.pending.filter (fun p => p.1 != id) }
  else d

/-- The correction `delta` computed by `syncToOther` (lines 296-300). -/
def Deck.syncDelta {α : Type} [LinearOrderedField α] [FloorRing α] (d other : Deck α) : α :=
  let spb := d.secondsPerBeat
  let phaseThis := jsMod (d.currentTime - d.beat1) spb
  let phaseOther := jsMod (other.currentTime - other.beat1) other.secondsPerBeat
  let delta := phaseOther - phaseThis
  if |delta| > spb / 2 then delta + (if delta > 0 then -spb else spb) else delta

/-- `syncToOther()` (lines 287-302) in exact arithmetic; `other` is
`this.master.otherDeck(this.id)`, `none` while no deck is attached. `Deck.syncToOtherFl`
below adds the rounding of every operation, which decides the two decimals written to
the slider when the percentage is within rounding of a tie. -/
def Deck.syncToOther {α : Type} [LinearOrderedField α] [FloorRing α]
    (d : Deck α) (other : Option (Deck α)) : Deck α :=
  match other with
  | none => d
  | some o =>
    let ratio := orDefault o.bpm 120 / orDefault d.bpm 120
    let pct := ( ratio - 1) * 100
    let d1 := Deck.updatePlaybackRate { d with tempo := some (toFixed2 (clamp pct (-8) 8)) }
    { d1 with currentTime := d1.currentTime + d1.syncDelta o }

/-! ## Deck transport in rounded arithmetic

The same functions with every arithmetic operation followed by the rounding `fl` of
the number format: `fl = roundDouble` is the code as it runs on JavaScript numbers,
`fl = id` is the exact model above. `Math.floor`, `Math.max`, `Math.min` and `%` are
exact on their operands. -/

/-- `get secondsPerBeat()` (line 245) with the division rounded. -/
def Deck.secondsPerBeatFl {α : Type} [LinearOrderedField α] (fl : α → α) (d : Deck α) : α :=
  fl (60 / orDefault d.bpm 120)

/-- `updateLoop()` (lines 246-256) with every operation rounded. -/
def Deck.updateLoopFl {α : Type} [LinearOrderedField α] [FloorRing α] (fl : α → α)
    (d : Deck α) : Deck α :=
  if !d.loop4 then d
  else
    let spb := d.secondsPerBeatFl fl
    let len := fl (4 * spb)
    let now := d.currentTime
    let rel := max 0 (fl (now - d.beat1))
    let start := fl (d.beat1 + fl (((⌊fl (rel / len)⌋ : ℤ) : α) * len))
    { d with loop := true, loopStart := some start, loopEnd := some (fl (start + len)) }

/-- `updatePlaybackRate()` (lines 269-277) with every operation rounded. -/
def Deck.updatePlaybackRateFl {α : Type} [LinearOrderedField α] (fl : α → α)
    (d : Deck α) : Deck α :=
  let pct := orDefault (d.tempo.getD 0) 0
  let rate := fl (1 + fl (pct / 100))
  let nudge := orDefault (d.nudgeRate.getD 0) 1
  { d with userRate := some rate, playbackRate := fl (rate * nudge) }

/-- The correction `delta` of `syncToOther` (lines 296-300) with every operation
rounded. -/
def Deck.syncDeltaFl {α : Type} [LinearOrderedField α] [FloorRing α] (fl : α → α)
    (d other : Deck α) : α :=
  let spb := d.secondsPerBeatFl fl
  let phaseThis := jsMod (fl (d.currentTime - d.beat1)) spb
  let phaseOther := jsMod (fl (other.currentTime - other.beat1)) (other.secondsPerBeatFl fl)
  let delta := fl (phaseOther - phaseThis)
  if |delta| > fl (spb / 2) then fl (delta + (if delta > 0 then -spb else spb)) else delta

/-- `syncToOther()` (lines 287-302) with every operation rounded; the slider keeps the
two-decimal text, which `parseFloat` reads back as the nearest number. -/
def Deck.syncToOtherFl {α : Type} [LinearOrderedField α] [FloorRing α] (fl : α → α)
    (d : Deck α) (other : Option (Deck α)) : Deck α :=
  match other with
  | none => d
  | some o =>
    let ratio := fl (orDefault o.bpm 120 / orDefault d.bpm 120)
    let pct := fl (fl ( ratio - 1) * 100)
    let d1 := Deck.updatePlaybackRateFl fl
      { d with tempo := some (fl (toFixed2 (clamp pct (-8) 8))) }
    { d1 with currentTime := fl (d1.currentTime + d1.syncDeltaFl fl o) }

/-! ## Key compatibility -/

/-- `String.prototype.toUpperCase` as far as the Camelot pattern can tell: the ASCII
letters are raised; every other character is left alone, as no character outside
`a`-`z` upper-cases to a digit, to `A` or to `B` alone. -/
def toUpperCase (s : List Char) : List Char := s.map Char.toUpper

/-- The class `[AB]` of the pattern. -/
def isCamelotLetter (c : Char) : Bool := c == 'A' || c == 'B'

/-- The match of `/^(\d{1,2})([AB])$/`: the two capture groups, or `none`. -/
def camelotMatch (s : List Char) : Option (List Char × Char) :=
  match s with
  | [d1, l] => if d1.isDigit && isCamelotLetter l then some ([d1], l) else none
  | [d1, d2, l] =>
    if d1.isDigit && d2.isDigit && isCamelotLetter l then some ([d1, d2], l) else none
  | _ => none

/-- `parseInt(digits, 10)` on a string of decimal digits. -/
def parseInt (digits : List Char) : ℤ :=
  digits.foldl (fun n c => 10 * n + ((c.toNat - '0'.toNat : ℕ) : ℤ)) 0

/-- `const wrap = (n) => ((n - 1 + 12) % 12) + 1;` (line 410), `%` truncating. -/
def wrap (n : ℤ) : ℤ := Int.tmod (n - 1 + 12) 12 + 1

/-- `function camelotCompatible(a, b)` (lines 403-412). -/
def camelotCompatible (a b : String) : Bool :=
  let m := fun (s : String) => camelotMatch (toUpperCase s.data)
  match m a, m b with
  | some (d1, l1), some (d2, l2) =>
    let n1 := parseInt d1
    let n2 := parseInt d2
    if l1 != l2 then false
    else n1 == n2 || wrap (n1 + 1) == n2 || wrap (n1 - 1) == n2
  | _, _ => false

/-- The usual spelling of a Camelot code: the decimal digits of the wheel position
followed by the letter, as in `8A` or `12B`. -/
def camelotCode (n : ℕ) (l : Char) : String := ⟨(Nat.toDigits 10 n) ++ [l]⟩

/-- The exception a call of a missing method raises. -/
inductive JsError where
  | typeError
  deriving DecidableEq, Repr

deriving instance DecidableEq for Except

/-- What the property read `circle[k]` can produce: `undefined`, one of the arrays of
the literal, or a member inherited from `Object.prototype` (truthy, and without an
`includes` method). -/
inductive CircleEntry where
  | undefined
  | array (minors : List String)
  | inherited
  deriving DecidableEq, Repr

/-- The own properties of the object literal `circle` (lines 415-418). -/
def circleTable : List (String × List String) :=
  [("C", ["Am"]), ("G", ["Em"]), ("D", ["Bm"]), ("A", ["F#m"]), ("E", ["C#m"]),
   ("B", ["G#m"]), ("F#", ["D#m"]), ("C#", ["A#m"]),
   ("F", ["Dm"]), ("Bb", ["Gm"]), ("Eb", ["Cm"]), ("Ab", ["Fm"]), ("Db", ["Bbm"]),
   ("Gb", ["Ebm"]), ("Cb", ["Abm"])]

/-- The property names every object literal inherits from `Object.prototype`. -/
def objectPrototypeKeys : List String :=
  ["constructor", "hasOwnProperty", "isPrototypeOf", "propertyIsEnumerable",
   "toLocaleString", "toString", "valueOf", "__proto__", "__defineGetter__",
   "__defineSetter__", "__lookupGetter__", "__lookupSetter__"]

/-- The property read `circle[k]`. -/
def circle (k : String) : CircleEntry :=
  match circleTable.lookup k with
  | some minors => .array minors
  | none => if objectPrototypeKeys.contains k then .inherited else .undefined

/-- `String.prototype.replace` with a one-character string pattern: only the first
occurrence is replaced. -/
def replaceFirst (c r : Char) : List Char → List Char
  | [] => []
  | x :: xs => if x = c then r :: xs else x :: replaceFirst c r xs

/-- `const norm = (k) => k.replace('m', 'm').replace('♯', '#').replace('♭', 'b');`
(line 419). -/
def norm (k : String) : String :=
  ⟨replaceFirst '♭' 'b' (replaceFirst '♯' '#' (replaceFirst 'm' 'm' k.data))⟩

/-- One operand `circle[x] && circle[x].includes(y)` of line 422, as a truth value. -/
def circleIncludes (x y : String) : Except JsError Bool :=
  match circle x with
  | .undefined => .ok false
  | .array minors => .ok (minors.contains y)
  | .inherited => .error .typeError

/-- `function musicalCompatible(a, b)` (lines 414-423): the truth value of the result,
or the `TypeError` of calling `includes` on an inherited member. -/
def musicalCompatible (a b : String) : Except JsError Bool :=
  let a := norm a
  let b := norm b
  if a = b then .ok true
  else do
    let left ← circleIncludes a b
    if left then pure true else circleIncludes b a

/-- The characters `String.prototype.trim` strips: white space and line
terminators. -/
def isJsWhitespace (c : Char) : Bool :=
  c.toNat ∈ [0x9, 0xA, 0xB, 0xC, 0xD, 0x20, 0xA0, 0x1680, 0x2028, 0x2029, 0x202F, 0x205F,
    0x3000, 0xFEFF] || (0x2000 ≤ c.toNat && c.toNat ≤ 0x200A)

/-- The part of `trim` working on the end of the string. -/
def trimEnd : List Char → List Char
  | [] => []
  | x :: xs => if (trimEnd xs).isEmpty && isJsWhitespace x then [] else x :: trimEnd xs

/-- `String.prototype.trim`. -/
def trim (s : String) : String := ⟨trimEnd (s.data.dropWhile isJsWhitespace)⟩

/-- What `updateHarmonic` shows in the harmonic status line. -/
inductive HarmonicStatus where
  | keysOnly
  | goodMatch
  | clash
  deriving DecidableEq, Repr

/-- `updateHarmonic()` (lines 392-399) on the contents of the two key fields (the empty
string for a deck that is not attached): the status shown, or the exception that
escapes. -/
def updateHarmonic (keyA keyB : String) : Except JsError HarmonicStatus :=
  let kA := trim keyA
  let kB := trim keyB
  if kA.data.isEmpty || kB.data.isEmpty then .ok .keysOnly
  else do
    let ok ← if camelotCompatible kA kB then pure true else musicalCompatible kA kB
    pure (if ok then .goodMatch else .clash)

/-! ## Timer discipline -/

/-- Only the callback registered last, the one `nudgeTimeout` names, can be pending:
every `nudge` clears its predecessor. Holds in `Deck.init` and is kept by `nudge` and
`fireTimeout`. -/
def Deck.timersOk {α : Type} (d : Deck α) : Prop :=
  ∀ p ∈ d.pending, d.nudgeTimeout = some p.1

/-- A run of `nudge` calls, in order, with no timer running in between. -/
def Deck.nudges {α : Type} [LinearOrderedField α] (dirs : List α) (d : Deck α) : Deck α :=
  dirs.foldl (fun s x => s.nudge x) d

/-! ## Double precision -/

/-- Rounding to the nearest integer, a tie going to the even neighbour. -/
def roundHalfEven {α : Type} [LinearOrderedField α] [FloorRing α] (q : α) : ℤ :=
  if q - (⌊q⌋ : α) < 1 / 2 then ⌊q⌋
  else if 1 / 2 < q - (⌊q⌋ : α) then ⌊q⌋ + 1
  else if ⌊q⌋ % 2 = 0 then ⌊q⌋ else ⌊q⌋ + 1

/-- The rounding every arithmetic operation on JavaScript numbers ends with: the value
is replaced by the nearest number with a 53-bit significand (IEEE 754 binary64, round
to nearest, ties to even). The exponent range is left unbounded: overflow and
subnormal numbers are outside the model. -/
def roundDouble {α : Type} [LinearOrderedField α] [FloorRing α] (x : α) : α :=
  if x = 0 then 0
  else
    let ulp : α := (2 : α) ^ (Int.log 2 |x| - 52)
    (roundHalfEven (x / ulp) : α) * ulp

/-! ## Concrete decks -/

/-- A deck over `ℚ` at 120 BPM with the loop engaged, 3.3 s into a track whose downbeat
was marked at 0.25 s. -/
def deck120 : Deck ℚ :=
  { Deck.init (some 0) with bpm := 120, beat1 := 1 / 4, currentTime := 33 / 10, loop4 := true }

/-- A deck at 120 BPM sitting 0.4 s before its marked downbeat. -/
def syncThis : Deck ℚ :=
  { Deck.init (some 0) with bpm := 120, beat1 := 1 / 2, currentTime := 1 / 10 }

/-- The other deck, at 120 BPM, 0.4 s after its marked downbeat. -/
def syncOther : Deck ℚ :=
  { Deck.init (some 0) with bpm := 120, beat1 := 0, currentTime := 2 / 5 }

/-- A deck at 120 BPM standing on its marked downbeat. -/
def syncOnBeat : Deck ℚ :=
  { Deck.init (some 0) with bpm := 120, beat1 := 0, currentTime := 0 }

/-- A deck at 60 BPM, 0.9 s after its marked downbeat. -/
def syncSlow : Deck ℚ :=
  { Deck.init (some 0) with bpm := 60, beat1 := 0, currentTime := 9 / 10 }

/-- A deck over `ℚ` with the tempo slider at +3 %, playing at that rate. -/
def deckPlus3 : Deck ℚ :=
  Deck.updatePlaybackRate (Deck.init (some 3))

/-- A deck at 120 BPM whose downbeat was marked at 1 s, now 0.1 s past a beat of its
grid (at 2.6 s). -/
def syncLate : Deck ℚ :=
  { Deck.init (some 0) with bpm := 120, beat1 := 1, currentTime := 13 / 5 }

/-- A deck over `ℚ` at the constructor's 128 BPM, no nudge active. -/
def bpm128 : Deck ℚ := Deck.init (some 0)

/-- A deck over `ℚ` at 125 BPM. -/
def bpm125 : Deck ℚ := { Deck.init (some 0) with bpm := 125 }

/-- A deck over `ℚ` at 130 BPM, which a 125 BPM deck matches at +4.00 %. -/
def bpm130 : Deck ℚ := { Deck.init (some 0) with bpm := 130 }

/-- A deck over `ℚ` at 87 BPM with the loop engaged and the downbeat at 0 s, standing at
80 s, the start of the thirtieth four-beat tile. -/
def deck87 : Deck ℚ :=
  { Deck.init (some 0) with bpm := 87, beat1 := 0, currentTime := 80, loop4 := true }

/-- A deck over `ℚ` at 125.15625 BPM, 0.125 % above 125 BPM. -/
def bpmTie : Deck ℚ := { Deck.init (some 0) with bpm := 4005 / 32 }

/-! ## Theorems -/

/-- C1: for every crossfader position `x` in `[-1, 1]` the two gains returned by
`constantPower x` have squares summing to one. -/
theorem constantPower_sq_add_sq (x : ℝ) (hx : x ∈ Set.Icc (-1 : ℝ) 1) :
    (constantPower x).1 ^ 2 + (constantPower x).2 ^ 2 = 1 := by
  have _ := hx
  have hb : (1 - (x + 1) / 2) * Real.pi / 2 = Real.pi / 2 - (x + 1) / 2 * Real.pi / 2 := by
    ring
  simp only [constantPower]
  rw [hb, Real.cos_pi_div_two_sub]
  exact Real.cos_sq_add_sin_sq _

/-- Witness of C1 at the right end of the fader travel. -/
theorem constantPower_sq_add_sq_witness :
    (1 : ℝ) ∈ Set.Icc (-1 : ℝ) 1 ∧
      (constantPower 1).1 ^ 2 + (constantPower 1).2 ^ 2 = 1 :=
  ⟨by constructor <;> norm_num, constantPower_sq_add_sq 1 (by constructor <;> norm_num)⟩

/-- C2: at the centre position `x = 0` both gains equal `√2 / 2`, which lies within
`0.0005` of `0.707`. -/
theorem constantPower_center :
    constantPower 0 = (Real.sqrt 2 / 2, Real.sqrt 2 / 2) ∧
      (constantPower 0).1 = (constantPower 0).2 ∧
      |Real.sqrt 2 / 2 - 0.707| < 0.0005 := by
  have ha : ((0 : ℝ) + 1) / 2 * Real.pi / 2 = Real.pi / 4 := by ring
  have hb : (1 - ((0 : ℝ) + 1) / 2) * Real.pi / 2 = Real.pi / 4 := by ring
  have hc : constantPower 0 = (Real.sqrt 2 / 2, Real.sqrt 2 / 2) := by
    simp only [constantPower]
    rw [ha, hb, Real.cos_pi_div_four]
  refine ⟨hc, by rw [hc], ?_⟩
  have h1 : (1.414 : ℝ) < Real.sqrt 2 := by
    rw [Real.lt_sqrt (by norm_num)]
    norm_num
  have h2 : Real.sqrt 2 < (1.415 : ℝ) := by
    rw [Real.sqrt_lt (by norm_num) (by norm_num)]
    norm_num
  rw [abs_lt]
  constructor <;> linarith

/-! ### Loop tiling -/

/-- With a positive tempo the `|| 120` fallback is not taken. -/
theorem Deck.secondsPerBeat_of_pos {α : Type} [LinearOrderedField α] (d : Deck α)
    (hbpm : 0 < d.bpm) : d.secondsPerBeat = 60 / d.bpm := by
  simp [Deck.secondsPerBeat, orDefault, hbpm.ne.symm]

/-- The state written by `updateLoop` on an engaged loop. -/
theorem Deck.updateLoop_engaged {α : Type} [LinearOrderedField α] [FloorRing α] (d : Deck α)
    (h4 : d.loop4 = true) :
    d.updateLoop =
      { d with
        loop := true
        loopStart := some (d.beat1 +
          ((⌊max 0 (d.currentTime - d.beat1) / (4 * d.secondsPerBeat)⌋ : ℤ) : α) *
            (4 * d.secondsPerBeat))
        loopEnd := some (d.beat1 +
          ((⌊max 0 (d.currentTime - d.beat1) / (4 * d.secondsPerBeat)⌋ : ℤ) : α) *
            (4 * d.secondsPerBeat) + 4 * d.secondsPerBeat) } := by
  simp [Deck.updateLoop, h4]

/-- C3: for a deck with positive bpm and engaged loop, `updateLoop` switches looping
on and writes a region of length `4 * secondsPerBeat = 240 / bpm`, where
`secondsPerBeat = 60 / bpm`. -/
theorem updateLoop_length {α : Type} [LinearOrderedField α] [FloorRing α] (d : Deck α)
    (hbpm : 0 < d.bpm) (h4 : d.loop4 = true) :
    d.secondsPerBeat = 60 / d.bpm ∧ d.updateLoop.loop = true ∧
      ∃ s e, d.updateLoop.loopStart = some s ∧ d.updateLoop.loopEnd = some e ∧
        e - s = 4 * d.secondsPerBeat ∧ e - s = 240 / d.bpm := by
  have hspb := d.secondsPerBeat_of_pos hbpm
  rw [d.updateLoop_engaged h4]
  refine ⟨hspb, rfl, _, _, rfl, rfl, by ring, ?_⟩
  rw [hspb]
  ring

/-- Witness of C3 on `deck120`. -/
theorem updateLoop_length_witness :
    deck120.secondsPerBeat = 60 / deck120.bpm ∧ deck120.updateLoop.loop = true ∧
      ∃ s e, deck120.updateLoop.loopStart = some s ∧ deck120.updateLoop.loopEnd = some e ∧
        e - s = 4 * deck120.secondsPerBeat ∧ e - s = 240 / deck120.bpm :=
  updateLoop_length deck120 (by norm_num [deck120]) rfl

/-- C4 as stated fails: at 120 BPM the beat period is not 2 s, and the loop written by
`updateLoop` on `deck120` is not 8 s long. -/
theorem bpm120_not_two_eight :
    deck120.bpm = 120 ∧ deck120.loop4 = true ∧ deck120.secondsPerBeat ≠ 2 ∧
      ¬ ∃ s e, deck120.updateLoop.loopStart = some s ∧ deck120.updateLoop.loopEnd = some e ∧
        e - s = 8 := by
  have hspb : deck120.secondsPerBeat = 1 / 2 := by
    rw [deck120.secondsPerBeat_of_pos (by norm_num [deck120])]
    norm_num [deck120]
  refine ⟨rfl, rfl, by rw [hspb]; norm_num, ?_⟩
  rintro ⟨s, e, hs, he, hlen⟩
  rw [deck120.updateLoop_engaged rfl] at hs he
  simp only [Option.some.injEq] at hs he
  rw [← hs, ← he, hspb] at hlen
  norm_num at hlen

/-- C4, amended: at 120 BPM the beat period is half a second and the engaged four-beat
loop written by `updateLoop` is 2 s long. -/
theorem bpm120_half_two {α : Type} [LinearOrderedField α] [FloorRing α] (d : Deck α)
    (hbpm : d.bpm = 120) (h4 : d.loop4 = true) :
    d.secondsPerBeat = 1 / 2 ∧
      ∃ s e, d.updateLoop.loopStart = some s ∧ d.updateLoop.loopEnd = some e ∧ e - s = 2 := by
  have hspb : d.secondsPerBeat = 1 / 2 := by
    rw [d.secondsPerBeat_of_pos (by rw [hbpm]; norm_num), hbpm]
    norm_num
  rw [d.updateLoop_engaged h4]
  refine ⟨hspb, _, _, rfl, rfl, ?_⟩
  rw [hspb]
  ring

/-- Witness of the amended C4 on `deck120`. -/
theorem bpm120_half_two_witness :
    deck120.secondsPerBeat = 1 / 2 ∧
      ∃ s e, deck120.updateLoop.loopStart = some s ∧ deck120.updateLoop.loopEnd = some e ∧
        e - s = 2 :=
  bpm120_half_two deck120 rfl rfl

/-! ### Phase sync -/

/-- C6 fails on the code: with both decks at 120 BPM (beat period 0.5 s), this deck
0.4 s before its downbeat and the other 0.4 s after its own, `syncToOther` moves
this deck by `delta = 0.3` s, more than half a period (0.25 s). The same happens with
both decks past their downbeats when the other deck is much slower: a 120 BPM deck on
its downbeat against a 60 BPM deck 0.9 s into its beat is moved by 0.4 s. -/
theorem syncDelta_exceeds_half_period :
    syncThis.secondsPerBeat = 1 / 2 ∧ syncThis.syncDelta syncOther = 3 / 10 ∧
      (syncThis.syncToOther (some syncOther)).currentTime = syncThis.currentTime + 3 / 10 ∧
      ¬ (-(syncThis.secondsPerBeat / 2) ≤ syncThis.syncDelta syncOther ∧
          syncThis.syncDelta syncOther ≤ syncThis.secondsPerBeat / 2) ∧
      syncOnBeat.secondsPerBeat = 1 / 2 ∧ syncOnBeat.syncDelta syncSlow = 2 / 5 := by
  have hc : ⌈(-(4 / 5) : ℚ)⌉ = 0 := by
    rw [Int.ceil_eq_iff]
    norm_num
  have hf : ⌊(9 / 10 : ℚ)⌋ = 0 := by
    rw [Int.floor_eq_iff]
    norm_num
  have hspb : syncThis.secondsPerBeat = 1 / 2 := by
    norm_num [syncThis, Deck.secondsPerBeat, orDefault, Deck.init]
  have hd : syncThis.syncDelta syncOther = 3 / 10 := by
    norm_num [Deck.syncDelta, syncThis, syncOther, Deck.secondsPerBeat, orDefault, jsMod, trunc,
      Deck.init, hc, abs_of_pos]
  refine ⟨hspb, hd, ?_, ?_, ?_, ?_⟩
  · have : (Deck.updatePlaybackRate
        { syncThis with tempo := some (toFixed2 (clamp ((orDefault syncOther.bpm 120 /
          orDefault syncThis.bpm 120 - 1) * 100) (-8) 8)) }).syncDelta syncOther =
        syncThis.syncDelta syncOther := rfl
    simp only [Deck.syncToOther, this, hd]
    rfl
  · rw [hd, hspb]
    norm_num
  · norm_num [syncOnBeat, Deck.secondsPerBeat, orDefault, Deck.init]
  · norm_num [Deck.syncDelta, syncOnBeat, syncSlow, Deck.secondsPerBeat, orDefault, jsMod, trunc,
      Deck.init, hf, abs_of_pos]

/-! ### Camelot wheel -/

/-- C7: for wheel positions `n1, n2` in `1..12` and letters `l1, l2` in `{A, B}`,
`camelotCompatible` on the codes `n1 l1` and `n2 l2` is true exactly when the letters
agree and the positions are equal or differ by one modulo 12; `8A` with `9A` is
compatible and `8A` with `3B` is not. -/
theorem camelotCompatible_iff (n1 n2 : ℕ) (l1 l2 : Char)
    (h1 : 1 ≤ n1 ∧ n1 ≤ 12) (h2 : 1 ≤ n2 ∧ n2 ≤ 12)
    (hl1 : l1 = 'A' ∨ l1 = 'B') (hl2 : l2 = 'A' ∨ l2 = 'B') :
    (camelotCompatible (camelotCode n1 l1) (camelotCode n2 l2) = true ↔
      l1 = l2 ∧ (n1 = n2 ∨ (n1 + 1) % 12 = n2 % 12 ∨ (n2 + 1) % 12 = n1 % 12)) ∧
    camelotCompatible "8A" "9A" = true ∧ camelotCompatible "8A" "3B" = false := by
  obtain ⟨h1l, h1u⟩ := h1
  obtain ⟨h2l, h2u⟩ := h2
  refine ⟨?_, by decide, by decide⟩
  interval_cases n1 <;> interval_cases n2 <;> rcases hl1 with rfl | rfl <;>
    rcases hl2 with rfl | rfl <;> decide

/-- Witness of C7 across the seam of the wheel, `12A` against `1A`. -/
theorem camelotCompatible_iff_witness :
    (camelotCompatible (camelotCode 12 'A') (camelotCode 1 'A') = true ↔
      'A' = 'A' ∧ (12 = 1 ∨ (12 + 1) % 12 = 1 % 12 ∨ (1 + 1) % 12 = 12 % 12)) ∧
    camelotCompatible "8A" "9A" = true ∧ camelotCompatible "8A" "3B" = false :=
  camelotCompatible_iff 12 1 'A' 'A' (by decide) (by decide) (by decide) (by decide)

/-! ### Traditional key names -/

theorem replaceFirst_self (c : Char) (l : List Char) : replaceFirst c c l = l := by
  induction l with
  | nil => rfl
  | cons x xs ih =>
    by_cases h : x = c
    · simp [replaceFirst, h]
    · simp [replaceFirst, h, ih]

theorem replaceFirst_eq_nil (c r : Char) (l : List Char) :
    replaceFirst c r l = [] ↔ l = [] := by
  cases l with
  | nil => simp [replaceFirst]
  | cons x xs =>
    by_cases h : x = c <;> simp [replaceFirst, h]

theorem replaceFirst_of_not_mem (c r : Char) (l : List Char) (h : c ∉ l) :
    replaceFirst c r l = l := by
  induction l with
  | nil => rfl
  | cons x xs ih =>
    have hx : x ≠ c := fun e => h (e ▸ List.mem_cons_self _ _)
    have hxs : c ∉ xs := fun m => h (List.mem_cons_of_mem _ m)
    simp [replaceFirst, hx, ih hxs]

theorem mem_replaceFirst (c r x : Char) (l : List Char) (h : x ∈ replaceFirst c r l) :
    x ∈ l ∨ x = r := by
  induction l with
  | nil => simp [replaceFirst] at h
  | cons y ys ih =>
    by_cases hy : y = c
    · simp only [replaceFirst, hy, if_true, List.mem_cons] at h
      rcases h with h | h
      · exact Or.inr h
      · exact Or.inl (List.mem_cons_of_mem _ h)
    · simp only [replaceFirst, hy, if_false, List.mem_cons] at h
      rcases h with h | h
      · exact Or.inl (h ▸ List.mem_cons_self _ _)
      · rcases ih h with h | h
        · exact Or.inl (List.mem_cons_of_mem _ h)
        · exact Or.inr h

theorem not_mem_replaceFirst (c r : Char) (hr : r ≠ c) (l : List Char)
    (h : l.count c ≤ 1) : c ∉ replaceFirst c r l := by
  induction l with
  | nil => simp [replaceFirst]
  | cons y ys ih =>
    by_cases hy : y = c
    · subst hy
      have hc : ys.count y = 0 := by
        rw [List.count_cons_self] at h
        omega
      have hn : y ∉ ys := List.count_eq_zero.mp hc
      simp only [replaceFirst, if_true, List.mem_cons, not_or]
      exact ⟨fun e => hr e.symm, hn⟩
    · have hc : ys.count c ≤ 1 := by
        rw [List.count_cons_of_ne (Ne.symm hy)] at h
        exact h
      simp only [replaceFirst, hy, if_false, List.mem_cons, not_or]
      exact ⟨fun e => hy e.symm, ih hc⟩

theorem count_replaceFirst_of_ne (c r x : Char) (hc : x ≠ c) (hr : x ≠ r) (l : List Char) :
    (replaceFirst c r l).count x = l.count x := by
  induction l with
  | nil => rfl
  | cons y ys ih =>
    by_cases hy : y = c
    · subst hy
      simp only [replaceFirst, if_true]
      rw [List.count_cons_of_ne hr, List.count_cons_of_ne hc]
    · simp only [replaceFirst, hy, if_false]
      by_cases hyx : y = x
      · subst hyx
        rw [List.count_cons_self, List.count_cons_self, ih]
      · rw [List.count_cons_of_ne (Ne.symm hyx), List.count_cons_of_ne (Ne.symm hyx), ih]

/-- On a name with at most one `♯` and one `♭`, a second normalisation changes nothing. -/
theorem norm_norm (k : String) (hs : k.data.count '♯' ≤ 1) (hf : k.data.count '♭' ≤ 1) :
    norm (norm k) = norm k := by
  have h1 : '♯' ∉ replaceFirst '♯' '#' k.data :=
    not_mem_replaceFirst _ _ (by decide) _ hs
  have h2 : '♯' ∉ replaceFirst '♭' 'b' (replaceFirst '♯' '#' k.data) := by
    intro h
    rcases mem_replaceFirst _ _ _ _ h with h | h
    · exact h1 h
    · exact absurd h (by decide)
  have h3 : (replaceFirst '♯' '#' k.data).count '♭' ≤ 1 := by
    rw [count_replaceFirst_of_ne _ _ _ (by decide) (by decide)]
    exact hf
  have h4 : '♭' ∉ replaceFirst '♭' 'b' (replaceFirst '♯' '#' k.data) :=
    not_mem_replaceFirst _ _ (by decide) _ h3
  simp only [norm, replaceFirst_self]
  rw [replaceFirst_of_not_mem _ _ _ h2, replaceFirst_of_not_mem _ _ _ h4]

theorem dropWhile_replaceFirst (c r : Char) (hc : isJsWhitespace c = false)
    (hr : isJsWhitespace r = false) (l : List Char) :
    (replaceFirst c r l).dropWhile isJsWhitespace =
      replaceFirst c r (l.dropWhile isJsWhitespace) := by
  induction l with
  | nil => rfl
  | cons x xs ih =>
    by_cases hx : x = c
    · subst hx
      simp [replaceFirst, List.dropWhile, hc, hr]
    · cases hw : isJsWhitespace x
      · simp [replaceFirst, List.dropWhile, hx, hw]
      · simp [replaceFirst, List.dropWhile, hx, hw, ih]

theorem trimEnd_replaceFirst (c r : Char) (hc : isJsWhitespace c = false)
    (hr : isJsWhitespace r = false) (l : List Char) :
    trimEnd (replaceFirst c r l) = replaceFirst c r (trimEnd l) := by
  induction l with
  | nil => rfl
  | cons x xs ih =>
    by_cases hx : x = c
    · subst hx
      simp [replaceFirst, trimEnd, hc, hr]
    · have he : (replaceFirst c r (trimEnd xs)).isEmpty = (trimEnd xs).isEmpty := by
        cases h : trimEnd xs with
        | nil => rfl
        | cons y ys => by_cases hy : y = c <;> simp [replaceFirst, hy]
      simp only [replaceFirst, hx, if_false, trimEnd, ih, he]
      split
      · rfl
      · simp [replaceFirst, hx]

theorem trimEnd_sublist (l : List Char) : (trimEnd l).Sublist l := by
  induction l with
  | nil => exact List.Sublist.refl _
  | cons x xs ih =>
    simp only [trimEnd]
    split
    · exact List.nil_sublist _
    · exact ih.cons₂ x

/-- Trimming commutes with the normalisation of the accidental signs. -/
theorem trim_norm (k : String) : trim (norm k) = norm (trim k) := by
  simp only [trim, norm, replaceFirst_self]
  rw [dropWhile_replaceFirst _ _ (by decide) (by decide),
    dropWhile_replaceFirst _ _ (by decide) (by decide),
    trimEnd_replaceFirst _ _ (by decide) (by decide),
    trimEnd_replaceFirst _ _ (by decide) (by decide)]

theorem count_trim_le (c : Char) (k : String) : (trim k).data.count c ≤ k.data.count c :=
  ((trimEnd_sublist _).trans (List.dropWhile_sublist _)).count_le c

theorem norm_data_isEmpty (k : String) : (norm k).data.isEmpty = k.data.isEmpty := by
  cases h : k.data with
  | nil => simp [norm, h, replaceFirst]
  | cons x xs =>
    have hne : (norm k).data ≠ [] := by
      simp [norm, replaceFirst_eq_nil, h]
    cases hn : (norm k).data with
    | nil => exact absurd hn hne
    | cons y ys => rfl

/-- Two names with the same normal form are compatible. -/
theorem musicalCompatible_of_norm_eq (a b : String) (h : norm a = norm b) :
    musicalCompatible a b = .ok true := by
  simp [musicalCompatible, h]

/-- C8 as stated fails: the sharp and the flat name of one key, `C#` and `Db`, are
not compatible, and the harmonic status shown for them is a clash. -/
theorem enharmonic_clash :
    musicalCompatible "C#" "Db" = .ok false ∧ updateHarmonic "C#" "Db" = .ok .clash := by
  decide

/-- C8, amended: the lookup identifies the two ways of writing an accidental sign.
For a key name `k` with at most one `♯` and at most one `♭`, and `norm k` the same
name with `♯` written `#` and `♭` written `b`, `musicalCompatible` is true on `k` and
`norm k` in either order, and `updateHarmonic` shows a good match for them unless `k`
is blank. The sharp and flat names of one key (`C#`/`Db`, `F#`/`Gb`, `A#m`/`Bbm`) stay
incompatible. -/
theorem accidental_spelling_compatible (k : String)
    (hs : k.data.count '♯' ≤ 1) (hf : k.data.count '♭' ≤ 1) :
    musicalCompatible k (norm k) = .ok true ∧ musicalCompatible (norm k) k = .ok true ∧
      (trim k ≠ "" → updateHarmonic k (norm k) = .ok .goodMatch) ∧
      ∀ p ∈ [("C#", "Db"), ("F#", "Gb"), ("A#m", "Bbm")],
        musicalCompatible p.1 p.2 = .ok false ∧ updateHarmonic p.1 p.2 = .ok .clash := by
  have hnn := norm_norm k hs hf
  refine ⟨musicalCompatible_of_norm_eq _ _ hnn.symm, musicalCompatible_of_norm_eq _ _ hnn,
    ?_, by decide⟩
  intro hne
  have hts : (trim k).data.count '♯' ≤ 1 := (count_trim_le _ k).trans hs
  have htf : (trim k).data.count '♭' ≤ 1 := (count_trim_le _ k).trans hf
  have hm : musicalCompatible (trim k) (norm (trim k)) = .ok true :=
    musicalCompatible_of_norm_eq _ _ (norm_norm _ hts htf).symm
  have hd : (trim k).data.isEmpty = false := by
    cases h : (trim k).data with
    | nil => exact absurd (String.ext h) hne
    | cons x xs => rfl
  have he : (norm (trim k)).data.isEmpty = false := by rw [norm_data_isEmpty, hd]
  simp only [updateHarmonic, trim_norm, hd, he, hm]
  cases camelotCompatible (trim k) (norm (trim k)) <;> rfl

/-- Witness of the amended C8 on `D♭m`. -/
theorem accidental_spelling_compatible_witness :
    musicalCompatible "D♭m" (norm "D♭m") = .ok true ∧
      musicalCompatible (norm "D♭m") "D♭m" = .ok true ∧
      (trim "D♭m" ≠ "" → updateHarmonic "D♭m" (norm "D♭m") = .ok .goodMatch) ∧
      ∀ p ∈ [("C#", "Db"), ("F#", "Gb"), ("A#m", "Bbm")],
        musicalCompatible p.1 p.2 = .ok false ∧ updateHarmonic p.1 p.2 = .ok .clash :=
  accidental_spelling_compatible "D♭m" (by decide) (by decide)

/-! ### Level meter -/

theorem foldl_add_eq_sum (f : ℕ → ℝ) (d : List ℕ) (a : ℝ) :
    d.foldl (fun s x => s + f x) a = a + (d.map f).sum := by
  induction d generalizing a with
  | nil => simp
  | cons x xs ih =>
    simp only [List.foldl_cons, List.map_cons, List.sum_cons, ih]
    ring

theorem clamp_mem_unit (v : ℝ) : 0 ≤ clamp v 0 1 ∧ clamp v 0 1 ≤ 1 := by
  unfold clamp
  exact ⟨le_min zero_le_one (le_max_left _ _), min_le_left _ _⟩

/-- The loop of `getLevel` computes the root mean square. -/
theorem getLevel_eq (d : List ℕ) :
    Meter.getLevel d = clamp ((20 * Real.logb 10 (rootMeanSquare d + 1e-6) + 60) / 60) 0 1 := by
  have h := foldl_add_eq_sum (fun (x : ℕ) => ((x : ℝ) - 128) / 128 * (((x : ℝ) - 128) / 128)) d 0
  have hm : d.map (fun (x : ℕ) => (((x : ℝ) - 128) / 128) ^ 2) =
      d.map (fun (x : ℕ) => ((x : ℝ) - 128) / 128 * (((x : ℝ) - 128) / 128)) := by
    refine List.map_congr_left fun x _ => ?_
    ring
  simp only [Meter.getLevel, rootMeanSquare, h, hm, zero_add]

/-- C9: on a non-empty window of byte samples `getLevel` returns
`(20 * log10 (rms + 10⁻⁶) + 60) / 60` clamped to `[0, 1]`, with `rms` the root mean
square of `(d[i] - 128) / 128`; the result lies in `[0, 1]`, is `0` when every sample
is `128` and `1` when every sample is `0`. -/
theorem getLevel_spec (d : List ℕ) (hne : d ≠ []) (hbyte : ∀ x ∈ d, x < 256) :
    Meter.getLevel d = clamp ((20 * Real.logb 10 (rootMeanSquare d + 1e-6) + 60) / 60) 0 1 ∧
      0 ≤ Meter.getLevel d ∧ Meter.getLevel d ≤ 1 ∧
      ((∀ x ∈ d, x = 128) → Meter.getLevel d = 0) ∧
      ((∀ x ∈ d, x = 0) → Meter.getLevel d = 1) := by
  have _ := hbyte
  have hlen : (0 : ℝ) < (d.length : ℝ) := by
    exact_mod_cast List.length_pos.mpr hne
  refine ⟨getLevel_eq d, ?_, ?_, ?_, ?_⟩
  · rw [getLevel_eq]
    exact (clamp_mem_unit _).1
  · rw [getLevel_eq]
    exact (clamp_mem_unit _).2
  · intro hall
    have hsum : (d.map (fun (x : ℕ) => (((x : ℝ) - 128) / 128) ^ 2)).sum = 0 := by
      refine List.sum_eq_zero fun y hy => ?_
      obtain ⟨x, hx, rfl⟩ := List.mem_map.mp hy
      rw [hall x hx]
      norm_num
    have hrms : rootMeanSquare d = 0 := by
      simp [rootMeanSquare, hsum]
    have hlog : Real.logb 10 (1e-6 : ℝ) = -6 := by
      have h10 : (1e-6 : ℝ) = (10 : ℝ) ^ (-6 : ℝ) := by
        rw [Real.rpow_neg (by norm_num), show (6 : ℝ) = ((6 : ℕ) : ℝ) by norm_num,
          Real.rpow_natCast]
        norm_num
      rw [h10, Real.logb_rpow (by norm_num) (by norm_num)]
    rw [getLevel_eq, hrms, zero_add, hlog]
    norm_num [clamp]
  · intro hall
    have hmap : d.map (fun (x : ℕ) => (((x : ℝ) - 128) / 128) ^ 2) = d.map (fun (_ : ℕ) => (1 : ℝ)) := by
      refine List.map_congr_left fun x hx => ?_
      rw [hall x hx]
      norm_num
    have hsum : (d.map (fun (x : ℕ) => (((x : ℝ) - 128) / 128) ^ 2)).sum = (d.length : ℝ) := by
      rw [hmap]
      simp
    have hrms : rootMeanSquare d = 1 := by
      simp only [rootMeanSquare, hsum]
      rw [div_self hlen.ne.symm, Real.sqrt_one]
    have hpos : 0 < Real.logb 10 ((1 : ℝ) + 1e-6) :=
      Real.logb_pos (by norm_num) (by norm_num)
    rw [getLevel_eq, hrms]
    unfold clamp
    rw [min_eq_left]
    refine le_max_of_le_right ?_
    rw [le_div_iff₀ (by norm_num)]
    linarith

/-- Witness of C9 on the two-sample window `[128, 0]`. -/
theorem getLevel_spec_witness :
    Meter.getLevel [128, 0] =
        clamp ((20 * Real.logb 10 (rootMeanSquare [128, 0] + 1e-6) + 60) / 60) 0 1 ∧
      0 ≤ Meter.getLevel [128, 0] ∧ Meter.getLevel [128, 0] ≤ 1 ∧
      ((∀ x ∈ [128, 0], x = 128) → Meter.getLevel [128, 0] = 0) ∧
      ((∀ x ∈ [128, 0], x = 0) → Meter.getLevel [128, 0] = 1) :=
  getLevel_spec [128, 0] (by simp) (by decide)

/-! ### Nudge -/

/-- The fallback `v || 0` returns `v`. -/
theorem orDefault_zero {α : Type} [LinearOrderedField α] (v : α) : orDefault v 0 = v := by
  unfold orDefault
  split
  · next h => exact h.symm
  · rfl

/-- A non-zero value is truthy. -/
theorem orDefault_of_ne {α : Type} [LinearOrderedField α] (v dflt : α) (h : v ≠ 0) :
    orDefault v dflt = v := by
  simp [orDefault, h]

theorem Deck.timersOk_nudge {α : Type} [LinearOrderedField α] (d : Deck α) (dir : α)
    (h : d.timersOk) :
    (d.nudge dir).pending = [(d.nextTimer, 300)] ∧
      (d.nudge dir).nudgeTimeout = some d.nextTimer ∧ (d.nudge dir).timersOk ∧
      (d.nudge dir).tempo = d.tempo := by
  have hclear : (d.clearTimeout d.nudgeTimeout).pending = [] := by
    cases hnt : d.nudgeTimeout with
    | none =>
      simp only [Deck.clearTimeout]
      cases hp : d.pending with
      | nil => rfl
      | cons p ps =>
        have := h p (by rw [hp]; exact List.mem_cons_self _ _)
        rw [hnt] at this
        exact absurd this (by simp)
    | some i =>
      simp only [Deck.clearTimeout, List.filter_eq_nil_iff]
      intro p hp
      have := h p hp
      rw [hnt] at this
      simp only [Option.some.injEq] at this
      simp [this]
  have hnext : (d.clearTimeout d.nudgeTimeout).nextTimer = d.nextTimer := by
    cases d.nudgeTimeout <;> rfl
  have htempo : (d.clearTimeout d.nudgeTimeout).tempo = d.tempo := by
    cases d.nudgeTimeout <;> rfl
  have hp : (d.nudge dir).pending = [(d.nextTimer, 300)] := by
    simp [Deck.nudge, Deck.updatePlaybackRate, hclear, hnext]
  have ht : (d.nudge dir).nudgeTimeout = some d.nextTimer := by
    simp [Deck.nudge, Deck.updatePlaybackRate, hnext]
  refine ⟨hp, ht, ?_, ?_⟩
  · intro p hmem
    rw [hp, List.mem_singleton] at hmem
    rw [ht, hmem]
  · simp [Deck.nudge, Deck.updatePlaybackRate, htempo]

theorem Deck.timersOk_nudges {α : Type} [LinearOrderedField α] (dirs : List α) (d : Deck α)
    (h : d.timersOk) : (d.nudges dirs).timersOk ∧ (d.nudges dirs).tempo = d.tempo := by
  induction dirs generalizing d with
  | nil => exact ⟨h, rfl⟩
  | cons x xs ih =>
    obtain ⟨_, _, hok, ht⟩ := d.timersOk_nudge x h
    have := ih (d.nudge x) hok
    exact ⟨this.1, this.2.trans ht⟩

theorem Deck.nudge_playbackRate {α : Type} [LinearOrderedField α] (d : Deck α) (dir : α)
    (hdir : dir = -1 ∨ dir = 1) :
    (d.nudge dir).playbackRate = (1 + d.tempo.getD 0 / 100) * (1 + 2 / 100 * dir) := by
  have htempo : (d.clearTimeout d.nudgeTimeout).tempo = d.tempo := by
    cases d.nudgeTimeout <;> rfl
  have hne : (1 : α) + 2 / 100 * dir ≠ 0 := by
    rcases hdir with rfl | rfl <;> norm_num
  simp [Deck.nudge, Deck.updatePlaybackRate, orDefault_zero, orDefault_of_ne _ _ hne, htempo]

/-- The constructor leaves no callback pending. -/
theorem Deck.timersOk_init {α : Type} [LinearOrderedField α] (tempo0 : Option α) :
    (Deck.init tempo0).timersOk := by
  intro p hp
  simp [Deck.init] at hp

/-- Running a timer keeps the timer discipline. -/
theorem Deck.timersOk_fireTimeout {α : Type} [LinearOrderedField α] (d : Deck α) (id : ℕ)
    (h : d.timersOk) : (d.fireTimeout id).timersOk := by
  unfold Deck.fireTimeout
  split
  · intro p hp
    simp only [Deck.nudgeReset, Deck.updatePlaybackRate] at hp ⊢
    exact h p (List.mem_of_mem_filter hp)
  · exact h

/-- C10: nudge is self-reverting. After any run of earlier nudges, `nudge dir` with
`dir` one of `-1`, `+1` sets the playback rate to `(1 + pct/100) * (1 + 0.02 * dir)`,
where `pct` is the tempo-slider percentage, and leaves exactly one callback pending,
300 ms ahead; once that callback has run the rate is `1 + pct/100`, the rate before
the nudges whenever the deck was playing at its slider rate, and no callback is
left. -/
theorem nudge_self_reverting {α : Type} [LinearOrderedField α] (d : Deck α)
    (earlier : List α) (dir : α) (hdir : dir = -1 ∨ dir = 1) (hinv : d.timersOk) :
    ((d.nudges earlier).nudge dir).playbackRate =
        (1 + d.tempo.getD 0 / 100) * (1 + 2 / 100 * dir) ∧
      ((d.nudges earlier).nudge dir).pending = [((d.nudges earlier).nextTimer, 300)] ∧
      (((d.nudges earlier).nudge dir).fireTimeout (d.nudges earlier).nextTimer).playbackRate =
        1 + d.tempo.getD 0 / 100 ∧
      (((d.nudges earlier).nudge dir).fireTimeout (d.nudges earlier).nextTimer).pending = [] ∧
      (d.playbackRate = 1 + d.tempo.getD 0 / 100 →
        (((d.nudges earlier).nudge dir).fireTimeout (d.nudges earlier).nextTimer).playbackRate =
          d.playbackRate) := by
  obtain ⟨hok, htempo⟩ := d.timersOk_nudges earlier hinv
  obtain ⟨hp, _, _, ht⟩ := (d.nudges earlier).timersOk_nudge dir hok
  have hrate := (d.nudges earlier).nudge_playbackRate dir hdir
  rw [htempo] at hrate
  have hfire : (((d.nudges earlier).nudge dir).fireTimeout (d.nudges earlier).nextTimer) =
      Deck.nudgeReset { (d.nudges earlier).nudge dir with pending := [] } := by
    simp [Deck.fireTimeout, hp]
  have hfr : (((d.nudges earlier).nudge dir).fireTimeout
      (d.nudges earlier).nextTimer).playbackRate = 1 + d.tempo.getD 0 / 100 := by
    rw [hfire]
    simp [Deck.nudgeReset, Deck.updatePlaybackRate, orDefault_zero, orDefault_of_ne, ht, htempo]
  refine ⟨hrate, hp, hfr, ?_, fun h => by rw [hfr, h]⟩
  rw [hfire]
  rfl

/-- Witness of C10: three nudges on a deck playing at +3 %. -/
theorem nudge_self_reverting_witness :
    ((deckPlus3.nudges [1, 1]).nudge (-1)).playbackRate =
        (1 + deckPlus3.tempo.getD 0 / 100) * (1 + 2 / 100 * (-1)) ∧
      ((deckPlus3.nudges [1, 1]).nudge (-1)).pending =
        [((deckPlus3.nudges [1, 1]).nextTimer, 300)] ∧
      (((deckPlus3.nudges [1, 1]).nudge (-1)).fireTimeout
        (deckPlus3.nudges [1, 1]).nextTimer).playbackRate = 1 + deckPlus3.tempo.getD 0 / 100 ∧
      (((deckPlus3.nudges [1, 1]).nudge (-1)).fireTimeout
        (deckPlus3.nudges [1, 1]).nextTimer).pending = [] ∧
      (deckPlus3.playbackRate = 1 + deckPlus3.tempo.getD 0 / 100 →
        (((deckPlus3.nudges [1, 1]).nudge (-1)).fireTimeout
          (deckPlus3.nudges [1, 1]).nextTimer).playbackRate = deckPlus3.playbackRate) :=
  nudge_self_reverting deckPlus3 [1, 1] (-1) (Or.inl rfl) (by
    intro p hp
    simp [deckPlus3, Deck.updatePlaybackRate, Deck.init] at hp)

/-! ### Gain conversion -/

/-- C11: for every real `db`, `dbToGain db = 10 ^ (db / 20)`; it is strictly positive,
`dbToGain 0 = 1`, `dbToGain 20 = 10`, and adding decibels multiplies gains. -/
theorem dbToGain_spec (db a b : ℝ) :
    dbToGain db = (10 : ℝ) ^ (db / 20) ∧ 0 < dbToGain db ∧ dbToGain 0 = 1 ∧
      dbToGain 20 = 10 ∧ dbToGain (a + b) = dbToGain a * dbToGain b := by
  refine ⟨rfl, Real.rpow_pos_of_pos (by norm_num) _, ?_, ?_, ?_⟩
  · simp [dbToGain]
  · simp [dbToGain]
  · unfold dbToGain
    rw [add_div, Real.rpow_add (by norm_num)]

/-! ### Phase alignment at equal tempo -/

/-- On a non-negative dividend and a positive divisor the remainder is the floor
remainder and lies in `[0, b)`. -/
theorem jsMod_of_nonneg {α : Type} [LinearOrderedField α] [FloorRing α] (a b : α)
    (ha : 0 ≤ a) (hb : 0 < b) :
    jsMod a b = a - b * ((⌊a / b⌋ : ℤ) : α) ∧ 0 ≤ jsMod a b ∧ jsMod a b < b := by
  have hq : 0 ≤ a / b := div_nonneg ha hb.le
  have he : jsMod a b = a - b * ((⌊a / b⌋ : ℤ) : α) := by
    simp [jsMod, trunc, hq]
  have h1 : b * ((⌊a / b⌋ : ℤ) : α) ≤ a := by
    calc b * ((⌊a / b⌋ : ℤ) : α) ≤ b * (a / b) :=
          mul_le_mul_of_nonneg_left (Int.floor_le _) hb.le
      _ = a := mul_div_cancel₀ _ hb.ne.symm
  have h2 : a < b * ((⌊a / b⌋ : ℤ) : α) + b := by
    calc a = b * (a / b) := (mul_div_cancel₀ _ hb.ne.symm).symm
      _ < b * (((⌊a / b⌋ : ℤ) : α) + 1) := mul_lt_mul_of_pos_left (Int.lt_floor_add_one _) hb
      _ = b * ((⌊a / b⌋ : ℤ) : α) + b := by ring
  rw [he]
  exact ⟨rfl, by linarith, by linarith⟩

/-- The time written by `syncToOther` is the old one plus `syncDelta`. -/
theorem Deck.syncToOther_currentTime {α : Type} [LinearOrderedField α] [FloorRing α]
    (d o : Deck α) :
    (d.syncToOther (some o)).currentTime = d.currentTime + d.syncDelta o ∧
      (d.syncToOther (some o)).beat1 = d.beat1 ∧ (d.syncToOther (some o)).bpm = d.bpm :=
  ⟨rfl, rfl, rfl⟩

/-- The wrap step of `syncToOther` on a raw phase difference inside `(-p, p)`. -/
theorem wrap_half_period {α : Type} [LinearOrderedField α] (x p : α)
    (hlo : -p < x) (hhi : x < p) :
    |(if |x| > p / 2 then x + (if x > 0 then -p else p) else x)| ≤ p / 2 ∧
      ∃ m : ℤ, (if |x| > p / 2 then x + (if x > 0 then -p else p) else x) - x = (m : α) * p := by
  by_cases h : |x| > p / 2
  · rw [if_pos h]
    by_cases hx : x > 0
    · rw [if_pos hx]
      have hxa : p / 2 < x := by rwa [abs_of_pos hx] at h
      refine ⟨abs_le.mpr ⟨by linarith, by linarith⟩, -1, ?_⟩
      push_cast
      ring
    · rw [if_neg hx]
      have hx0 : x ≤ 0 := not_lt.mp hx
      have hxa : p / 2 < -x := by rwa [abs_of_nonpos hx0] at h
      refine ⟨abs_le.mpr ⟨by linarith, by linarith⟩, 1, ?_⟩
      push_cast
      ring
  · rw [if_neg h]
    exact ⟨not_lt.mp h, 0, by simp⟩

/-- C12: with both decks at the same positive bpm (beat period `spb`) and each deck at
or after its own `beat1`, the correction `delta` of `syncToOther` has `|delta| ≤ spb/2`
and, once it is added to `currentTime`, this deck's offset from its downbeat differs
from the other deck's offset from its downbeat by an integer multiple of `spb`
(`phaseThis + delta - phaseOther` is such a multiple). -/
theorem syncToOther_same_bpm {α : Type} [LinearOrderedField α] [FloorRing α] (d o : Deck α)
    (hbpm : 0 < d.bpm) (hsame : o.bpm = d.bpm)
    (hd : d.beat1 ≤ d.currentTime) (ho : o.beat1 ≤ o.currentTime) :
    (d.syncToOther (some o)).currentTime = d.currentTime + d.syncDelta o ∧
      |d.syncDelta o| ≤ d.secondsPerBeat / 2 ∧
      (∃ m : ℤ, jsMod (d.currentTime - d.beat1) d.secondsPerBeat + d.syncDelta o -
          jsMod (o.currentTime - o.beat1) o.secondsPerBeat = (m : α) * d.secondsPerBeat) ∧
      ∃ m : ℤ, ((d.syncToOther (some o)).currentTime - (d.syncToOther (some o)).beat1) -
          (o.currentTime - o.beat1) = (m : α) * d.secondsPerBeat := by
  have hspb : 0 < d.secondsPerBeat := by
    rw [d.secondsPerBeat_of_pos hbpm]
    positivity
  have hospb : o.secondsPerBeat = d.secondsPerBeat := by
    simp [Deck.secondsPerBeat, hsame]
  obtain ⟨hte, ht0, ht1⟩ :=
    jsMod_of_nonneg (d.currentTime - d.beat1) d.secondsPerBeat (sub_nonneg.mpr hd) hspb
  obtain ⟨hoe, ho0, ho1⟩ :=
    jsMod_of_nonneg (o.currentTime - o.beat1) d.secondsPerBeat (sub_nonneg.mpr ho) hspb
  set spb := d.secondsPerBeat with hspb_def
  set pt := jsMod (d.currentTime - d.beat1) spb with hpt
  set po := jsMod (o.currentTime - o.beat1) spb with hpo
  have hdelta : d.syncDelta o =
      if |po - pt| > spb / 2 then (po - pt) + (if po - pt > 0 then -spb else spb)
      else po - pt := by
    simp only [Deck.syncDelta, hospb, ← hspb_def, ← hpt, ← hpo]
  obtain ⟨hab, m, hm⟩ := wrap_half_period (po - pt) spb (by linarith) (by linarith)
  rw [← hdelta] at hab hm
  refine ⟨rfl, hab, ⟨m, ?_⟩, ⟨m + ⌊(d.currentTime - d.beat1) / spb⌋ -
    ⌊(o.currentTime - o.beat1) / spb⌋, ?_⟩⟩
  · rw [hospb]
    linarith
  · rw [(d.syncToOther_currentTime o).1, (d.syncToOther_currentTime o).2.1]
    push_cast
    linarith

/-- Witness of C12: two decks at 120 BPM, 0.4 s and 0.1 s past their downbeats. -/
theorem syncToOther_same_bpm_witness :
    (syncOther.syncToOther (some syncLate)).currentTime =
        syncOther.currentTime + syncOther.syncDelta syncLate ∧
      |syncOther.syncDelta syncLate| ≤ syncOther.secondsPerBeat / 2 ∧
      (∃ m : ℤ, jsMod (syncOther.currentTime - syncOther.beat1) syncOther.secondsPerBeat +
          syncOther.syncDelta syncLate -
          jsMod (syncLate.currentTime - syncLate.beat1) syncLate.secondsPerBeat =
            (m : ℚ) * syncOther.secondsPerBeat) ∧
      ∃ m : ℤ, ((syncOther.syncToOther (some syncLate)).currentTime -
          (syncOther.syncToOther (some syncLate)).beat1) -
          (syncLate.currentTime - syncLate.beat1) = (m : ℚ) * syncOther.secondsPerBeat :=
  syncToOther_same_bpm syncOther syncLate (by norm_num [syncOther, Deck.init]) rfl
    (by norm_num [syncOther, Deck.init]) (by norm_num [syncLate, Deck.init])

/-! ### Tempo match -/

/-- Two-decimal rounding moves a value by at most half a hundredth. -/
theorem toFixed2_close {α : Type} [LinearOrderedField α] [FloorRing α] (x : α) :
    |toFixed2 x - x| ≤ 1 / 200 := by
  unfold toFixed2
  split
  · have h1 := Int.floor_le (-x * 100 + 1 / 2)
    have h2 := Int.lt_floor_add_one (-x * 100 + 1 / 2)
    have e : -((⌊-x * 100 + 1 / 2⌋ : ℤ) : α) / 100 =
        -(1 / 100) * ((⌊-x * 100 + 1 / 2⌋ : ℤ) : α) := by ring
    rw [e, abs_le]
    constructor <;> linarith
  · have h1 := Int.floor_le (x * 100 + 1 / 2)
    have h2 := Int.lt_floor_add_one (x * 100 + 1 / 2)
    have e : ((⌊x * 100 + 1 / 2⌋ : ℤ) : α) / 100 =
        1 / 100 * ((⌊x * 100 + 1 / 2⌋ : ℤ) : α) := by ring
    rw [e, abs_le]
    constructor <;> linarith

/-- A whole number of hundredths is its own two-decimal rounding. -/
theorem toFixed2_hundredths {α : Type} [LinearOrderedField α] [FloorRing α] (n : ℤ) :
    toFixed2 ((n : α) / 100) = (n : α) / 100 := by
  have hfl : ∀ k : ℤ, ⌊(k : α) + 1 / 2⌋ = k := by
    intro k
    rw [Int.floor_eq_iff]
    constructor <;> norm_num
  unfold toFixed2
  split
  · have h : -((n : α) / 100) * 100 + 1 / 2 = ((-n : ℤ) : α) + 1 / 2 := by
      push_cast
      ring
    rw [h, hfl]
    push_cast
    ring
  · have h : (n : α) / 100 * 100 + 1 / 2 = (n : α) + 1 / 2 := by ring
    rw [h, hfl]

/-- What `syncToOther` writes to the tempo slider and the playback rate when the other
deck's bpm is within 8 % and no nudge is active. -/
theorem Deck.syncToOther_rate {α : Type} [LinearOrderedField α] [FloorRing α] (d o : Deck α)
    (hd : 0 < d.bpm) (ho : 0 < o.bpm)
    (hlo : 92 / 100 ≤ o.bpm / d.bpm) (hhi : o.bpm / d.bpm ≤ 108 / 100)
    (hn : d.nudgeRate = none ∨ d.nudgeRate = some 1) :
    (d.syncToOther (some o)).tempo = some (toFixed2 ((o.bpm / d.bpm - 1) * 100)) ∧
      (d.syncToOther (some o)).playbackRate =
        1 + toFixed2 ((o.bpm / d.bpm - 1) * 100) / 100 := by
  have hc : clamp ((o.bpm / d.bpm - 1) * 100) (-8) 8 = (o.bpm / d.bpm - 1) * 100 := by
    unfold clamp
    rw [max_eq_right (by linarith), min_eq_right (by linarith)]
  have hnr : orDefault (d.nudgeRate.getD 0) 1 = 1 := by
    rcases hn with h | h <;> simp [h, orDefault]
  simp only [Deck.syncToOther, Deck.updatePlaybackRate, orDefault_of_ne _ _ hd.ne.symm,
    orDefault_of_ne _ _ ho.ne.symm, hc, orDefault_zero, Option.getD_some, hnr, mul_one,
    and_self]

/-! ### Same key or relative major/minor -/

/-- In an association list without repeated keys, `lookup` finds exactly the pairs of
the list. -/
theorem lookup_eq_some_iff_mem (l : List (String × List String))
    (hnd : (l.map Prod.fst).Nodup) (k : String) (v : List String) :
    l.lookup k = some v ↔ (k, v) ∈ l := by
  induction l with
  | nil => simp
  | cons p t ih =>
    obtain ⟨k', v'⟩ := p
    rw [List.map_cons, List.nodup_cons] at hnd
    by_cases hk : k = k'
    · subst hk
      have hnot : (k, v) ∉ t := fun hm => hnd.1 (List.mem_map.mpr ⟨(k, v), hm, rfl⟩)
      rw [List.lookup_cons_self, List.mem_cons]
      constructor
      · intro h
        exact Or.inl (by rw [Option.some.inj h])
      · rintro (h | h)
        · rw [(Prod.mk.inj h).2]
        · exact absurd h hnot
    · have hb : (k == k') = false := by simpa using hk
      rw [List.lookup_cons, hb, List.mem_cons, ih hnd.2]
      constructor
      · exact Or.inr
      · rintro (h | h)
        · exact absurd (Prod.mk.inj h).1 hk
        · exact h

/-- The property read `circle[k]` yields an array exactly for the keys of the table. -/
theorem circle_eq_array_iff (k : String) (ms : List String) :
    circle k = .array ms ↔ (k, ms) ∈ circleTable := by
  rw [← lookup_eq_some_iff_mem circleTable (by decide)]
  unfold circle
  cases h : circleTable.lookup k with
  | none =>
    simp only [false_iff]
    split <;> simp
  | some v => simp

/-- The property read `circle[k]` reaches `Object.prototype` exactly for its keys. -/
theorem circle_eq_inherited_iff (k : String) :
    circle k = .inherited ↔ k ∈ objectPrototypeKeys := by
  unfold circle
  cases h : circleTable.lookup k with
  | none => simp
  | some v =>
    have hmem := (lookup_eq_some_iff_mem circleTable (by decide) k v).mp h
    have hall : ∀ p ∈ circleTable, p.1 ∉ objectPrototypeKeys := by decide
    simpa using hall _ hmem

/-- A relative minor of the table is not itself a property of `circle`. -/
theorem circle_minor (x y : String) (ms : List String) (h : (x, ms) ∈ circleTable)
    (hy : y ∈ ms) : circle y = .undefined := by
  have hall : ∀ p ∈ circleTable, ∀ m ∈ p.2, circle m = .undefined := by decide
  exact hall _ h _ hy

/-- The operand `circle[x] && circle[x].includes(y)` is true exactly when `y` is the
relative minor the table lists under `x`. -/
theorem circleIncludes_eq_true_iff (x y : String) :
    circleIncludes x y = .ok true ↔ (x, [y]) ∈ circleTable := by
  have hsingle : ∀ p ∈ circleTable, p.2.length = 1 := by decide
  unfold circleIncludes
  cases hc : circle x with
  | undefined =>
    simp only [Except.ok.injEq, Bool.false_eq_true, false_iff]
    intro hm
    rw [(circle_eq_array_iff x [y]).mpr hm] at hc
    exact CircleEntry.noConfusion hc
  | inherited =>
    constructor
    · intro h
      exact Except.noConfusion h
    · intro hm
      rw [(circle_eq_array_iff x [y]).mpr hm] at hc
      exact CircleEntry.noConfusion hc
  | array ms =>
    have hmem := (circle_eq_array_iff x ms).mp hc
    have hlen := hsingle _ hmem
    obtain ⟨m, rfl⟩ := List.length_eq_one.mp hlen
    simp only [Except.ok.injEq, List.contains_iff_exists_mem_beq, List.mem_singleton,
      exists_eq_left, beq_iff_eq]
    constructor
    · rintro rfl
      exact hmem
    · intro hm
      have h2 := (circle_eq_array_iff x [y]).mpr hm
      rw [hc] at h2
      simpa using (CircleEntry.array.inj h2).symm

/-- Read from the minor's side, the operand is false. -/
theorem circleIncludes_of_minor (x y : String) (h : (x, [y]) ∈ circleTable) (z : String) :
    circleIncludes y z = .ok false := by
  unfold circleIncludes
  rw [circle_minor x y [y] h (List.mem_singleton_self _)]

/-- The body of `musicalCompatible` on names that differ after normalisation. -/
theorem musicalCompatible_of_ne (a b : String) (h : norm a ≠ norm b) :
    musicalCompatible a b =
      match circleIncludes (norm a) (norm b) with
      | .ok true => .ok true
      | .ok false => circleIncludes (norm b) (norm a)
      | .error e => .error e := by
  simp only [musicalCompatible, if_neg h]
  cases circleIncludes (norm a) (norm b) with
  | error e => rfl
  | ok v => cases v <;> rfl

/-- The accepted pairs: the same key, or a major key of the table with the relative minor
listed under it, in either order. -/
theorem musicalCompatible_true_iff (a b : String) :
    musicalCompatible a b = .ok true ↔
      norm a = norm b ∨ (norm a, [norm b]) ∈ circleTable ∨ (norm b, [norm a]) ∈ circleTable := by
  by_cases h : norm a = norm b
  · simp [musicalCompatible, h]
  · rw [musicalCompatible_of_ne a b h]
    constructor
    · intro hres
      cases hl : circleIncludes (norm a) (norm b) with
      | error e =>
        rw [hl] at hres
        exact Except.noConfusion hres
      | ok v =>
        cases v with
        | true => exact Or.inr (Or.inl ((circleIncludes_eq_true_iff _ _).mp hl))
        | false =>
          rw [hl] at hres
          exact Or.inr (Or.inr ((circleIncludes_eq_true_iff _ _).mp hres))
    · rintro (he | hm | hm)
      · exact absurd he h
      · rw [(circleIncludes_eq_true_iff _ _).mpr hm]
      · rw [circleIncludes_of_minor _ _ hm]
        exact (circleIncludes_eq_true_iff _ _).mpr hm

/-- The pairs on which `musicalCompatible` raises instead of returning: two different
names one of which is a member `circle` inherits from `Object.prototype`. -/
theorem musicalCompatible_error_iff (a b : String) :
    musicalCompatible a b = .error .typeError ↔
      norm a ≠ norm b ∧ (norm a ∈ objectPrototypeKeys ∨ norm b ∈ objectPrototypeKeys) := by
  by_cases h : norm a = norm b
  · simp [musicalCompatible, h]
  · rw [musicalCompatible_of_ne a b h, ← circle_eq_inherited_iff, ← circle_eq_inherited_iff]
    simp only [ne_eq, h, not_false_eq_true, true_and]
    unfold circleIncludes
    cases ha : circle (norm a) with
    | inherited => simp
    | undefined =>
      cases hb : circle (norm b) with
      | inherited => simp
      | undefined => simp
      | array ms => simp
    | array ms =>
      have hmem := (circle_eq_array_iff _ _).mp ha
      cases hb : circle (norm b) with
      | inherited =>
        have hnot : norm b ∉ ms := by
          intro hin
          rw [circle_minor _ _ _ hmem hin] at hb
          exact CircleEntry.noConfusion hb
        simp [hnot]
      | undefined => by_cases hin : norm b ∈ ms <;> simp [hin]
      | array ms' => by_cases hin : norm b ∈ ms <;> simp [hin]

/-- The result of `musicalCompatible` does not depend on the order of the two keys. -/
theorem musicalCompatible_comm (a b : String) :
    musicalCompatible a b = musicalCompatible b a := by
  have ht : musicalCompatible a b = .ok true ↔ musicalCompatible b a = .ok true := by
    rw [musicalCompatible_true_iff, musicalCompatible_true_iff]
    constructor <;> rintro (h | h | h)
    · exact Or.inl h.symm
    · exact Or.inr (Or.inr h)
    · exact Or.inr (Or.inl h)
    · exact Or.inl h.symm
    · exact Or.inr (Or.inr h)
    · exact Or.inr (Or.inl h)
  have he : musicalCompatible a b = .error .typeError ↔
      musicalCompatible b a = .error .typeError := by
    rw [musicalCompatible_error_iff, musicalCompatible_error_iff]
    constructor <;> rintro ⟨h1, h2⟩ <;> exact ⟨fun e => h1 e.symm, h2.symm⟩
  cases h1 : musicalCompatible a b with
  | error e =>
    cases e
    exact (he.mp h1).symm
  | ok v =>
    cases v with
    | true => exact (ht.mp h1).symm
    | false =>
      cases h2 : musicalCompatible b a with
      | error e =>
        cases e
        rw [he.mpr h2] at h1
        exact Except.noConfusion h1
      | ok w =>
        cases w with
        | false => rfl
        | true =>
          rw [ht.mpr h2] at h1
          exact absurd h1 (by decide)

/-- C14: `musicalCompatible a b` is truthy exactly when the normalised names agree, or
one is one of the 15 major keys of the table and the other the relative minor listed
under it; the relation is reflexive and symmetric; `C` with `Am` and `Am` with `C`
are compatible, `C` with `Em` is not. -/
theorem musicalCompatible_iff (a b : String) :
    (musicalCompatible a b = .ok true ↔
      norm a = norm b ∨ (norm a, [norm b]) ∈ circleTable ∨ (norm b, [norm a]) ∈ circleTable) ∧
    circleTable.length = 15 ∧
    musicalCompatible a a = .ok true ∧
    musicalCompatible a b = musicalCompatible b a ∧
    musicalCompatible "C" "Am" = .ok true ∧ musicalCompatible "Am" "C" = .ok true ∧
    musicalCompatible "C" "Em" = .ok false :=
  ⟨musicalCompatible_true_iff a b, rfl, (musicalCompatible_true_iff a a).mpr (Or.inl rfl),
    musicalCompatible_comm a b, by decide, by decide, by decide⟩

/-! ### Order of the two Camelot codes -/

/-- On wheel positions the adjacency test does not depend on the order. -/
theorem wrap_adjacent_comm (n1 n2 : ℤ) (h1 : 1 ≤ n1 ∧ n1 ≤ 12) (h2 : 1 ≤ n2 ∧ n2 ≤ 12) :
    (n1 == n2 || wrap (n1 + 1) == n2 || wrap (n1 - 1) == n2) =
      (n2 == n1 || wrap (n2 + 1) == n1 || wrap (n2 - 1) == n1) := by
  obtain ⟨h1l, h1u⟩ := h1
  obtain ⟨h2l, h2u⟩ := h2
  interval_cases n1 <;> interval_cases n2 <;> rfl

/-- Whenever every code the pattern accepts carries a wheel position `1..12`, and on
strings the pattern rejects, `camelotCompatible` gives the same answer in both
orders. -/
theorem camelotCompatible_comm_of_wheel (a b : String)
    (h : ∀ s, s = a ∨ s = b → ∀ ds l, camelotMatch (toUpperCase s.data) = some (ds, l) →
      1 ≤ parseInt ds ∧ parseInt ds ≤ 12) :
    camelotCompatible a b = camelotCompatible b a := by
  cases ha : camelotMatch (toUpperCase a.data) with
  | none =>
    cases hb : camelotMatch (toUpperCase b.data) <;> simp only [camelotCompatible, ha, hb]
  | some p =>
    cases hb : camelotMatch (toUpperCase b.data) with
    | none => simp only [camelotCompatible, ha, hb]
    | some q =>
      obtain ⟨d1, l1⟩ := p
      obtain ⟨d2, l2⟩ := q
      have hw := wrap_adjacent_comm (parseInt d1) (parseInt d2)
        (h a (Or.inl rfl) d1 l1 ha) (h b (Or.inr rfl) d2 l2 hb)
      simp only [camelotCompatible, ha, hb]
      by_cases hl : l1 = l2
      · subst hl
        simpa using hw
      · have hl' : ¬ l2 = l1 := fun e => hl e.symm
        simp [hl, hl']

/-- C15 fails on the code: the pattern accepts `13A` and `0A`, and on them the answer
depends on the order: `13A` with `2A` and `0A` with `1A` are compatible, `2A` with
`13A` and `1A` with `0A` are not. -/
theorem camelotCompatible_order_matters :
    camelotCompatible "13A" "2A" = true ∧ camelotCompatible "2A" "13A" = false ∧
      camelotCompatible "0A" "1A" = true ∧ camelotCompatible "1A" "0A" = false := by
  decide

/-! ### Double rounding -/

/-- The nearest integer is at most one half away. -/
theorem roundHalfEven_close {α : Type} [LinearOrderedField α] [FloorRing α] (q : α) :
    |((roundHalfEven q : ℤ) : α) - q| ≤ 1 / 2 := by
  have h1 := Int.floor_le q
  have h2 := Int.lt_floor_add_one q
  unfold roundHalfEven
  rw [abs_le]
  split_ifs with ha hb hc
  · constructor <;> linarith
  · push_cast
    constructor <;> linarith
  · constructor <;> linarith
  · push_cast
    constructor <;> linarith

/-- A value less than one half away from an integer rounds to it. -/
theorem roundHalfEven_eq {α : Type} [LinearOrderedField α] [FloorRing α] (q : α) (n : ℤ)
    (h : |q - (n : α)| < 1 / 2) : roundHalfEven q = n := by
  rw [abs_lt] at h
  obtain ⟨hlo, hhi⟩ := h
  unfold roundHalfEven
  by_cases hq : (n : α) ≤ q
  · have hf : ⌊q⌋ = n := by
      rw [Int.floor_eq_iff]
      exact ⟨hq, by linarith⟩
    rw [hf, if_pos (by linarith)]
  · have hf : ⌊q⌋ = n - 1 := by
      rw [Int.floor_eq_iff]
      push_cast
      exact ⟨by linarith, by linarith [not_le.mp hq]⟩
    rw [hf]
    push_cast
    rw [if_neg (by linarith), if_pos (by linarith)]
    ring

/-- A value half-way between two integers rounds to the even one. -/
theorem roundHalfEven_tie {α : Type} [LinearOrderedField α] [FloorRing α] (f : ℤ) :
    roundHalfEven ((f : α) + 1 / 2) = if f % 2 = 0 then f else f + 1 := by
  have hf : ⌊(f : α) + 1 / 2⌋ = f := by
    rw [Int.floor_eq_iff]
    constructor <;> norm_num
  unfold roundHalfEven
  rw [hf]
  have h : (f : α) + 1 / 2 - (f : α) = 1 / 2 := by ring
  rw [h, if_neg (lt_irrefl _), if_neg (lt_irrefl _)]

/-- The unit in the last place of `x` is positive and at most `|x| / 2 ^ 52`. -/
theorem ulp_bounds {α : Type} [LinearOrderedField α] [FloorRing α] (x : α) (hx : x ≠ 0) :
    (0 : α) < (2 : α) ^ (Int.log 2 |x| - 52) ∧
      (2 : α) ^ (Int.log 2 |x| - 52) * 2 ^ 52 ≤ |x| := by
  have hpos : (0 : α) < |x| := abs_pos.mpr hx
  have h2 : (0 : α) < 2 := by norm_num
  refine ⟨zpow_pos h2 _, ?_⟩
  have hle := Int.zpow_log_le_self (b := 2) (by norm_num) hpos
  have he : (2 : α) ^ (Int.log 2 |x| - 52) * 2 ^ 52 = (2 : α) ^ Int.log 2 |x| := by
    rw [← zpow_natCast, ← zpow_add₀ h2.ne.symm]
    congr 1
    push_cast
    ring
  rw [he]
  simpa using hle

/-- Double rounding has relative error at most `2⁻⁵³`. -/
theorem roundDouble_error {α : Type} [LinearOrderedField α] [FloorRing α] (x : α) :
    |roundDouble x - x| ≤ 1 / 2 ^ 53 * |x| := by
  unfold roundDouble
  split
  · next h => simp [h]
  · next h =>
    obtain ⟨hpos, hle⟩ := ulp_bounds x h
    simp only
    set ulp : α := (2 : α) ^ (Int.log 2 |x| - 52) with hulp
    have hc := roundHalfEven_close (x / ulp)
    have he : ((roundHalfEven (x / ulp) : ℤ) : α) * ulp - x =
        (((roundHalfEven (x / ulp) : ℤ) : α) - x / ulp) * ulp := by
      field_simp
    rw [he, abs_mul, abs_of_pos hpos]
    calc |((roundHalfEven (x / ulp) : ℤ) : α) - x / ulp| * ulp ≤ 1 / 2 * ulp :=
          mul_le_mul_of_nonneg_right hc hpos.le
      _ = 1 / 2 ^ 53 * (ulp * 2 ^ 52) := by ring
      _ ≤ 1 / 2 ^ 53 * |x| := mul_le_mul_of_nonneg_left hle (by positivity)

/-- Evaluation of `roundDouble`: with `2 ^ e ≤ |x| < 2 ^ (e + 1)` and `x` less than
half a unit in the last place away from `n * 2 ^ (e - 52)`, that is the result. -/
theorem roundDouble_eq_of {α : Type} [LinearOrderedField α] [FloorRing α] (x y : α)
    (e n : ℤ) (hlo : (2 : α) ^ e ≤ |x|) (hhi : |x| < (2 : α) ^ (e + 1))
    (hn : |x / (2 : α) ^ (e - 52) - (n : α)| < 1 / 2) (hy : y = (n : α) * (2 : α) ^ (e - 52)) :
    roundDouble x = y := by
  have hpos : (0 : α) < |x| := lt_of_lt_of_le (zpow_pos (by norm_num) _) hlo
  have hx : x ≠ 0 := abs_pos.mp hpos
  have hlog : Int.log 2 |x| = e := by
    apply le_antisymm
    · have := (Int.lt_zpow_iff_log_lt (b := 2) (by norm_num) hpos).mp (by simpa using hhi)
      omega
    · exact (Int.zpow_le_iff_le_log (b := 2) (by norm_num) hpos).mp (by simpa using hlo)
  unfold roundDouble
  rw [if_neg hx, hy]
  simp only [hlog]
  rw [roundHalfEven_eq _ n hn]

/-- Evaluation of `roundDouble` on a tie: with `2 ^ e ≤ |x| < 2 ^ (e + 1)` and `x`
exactly half a unit in the last place above `f * 2 ^ (e - 52)`, the result is the
neighbour `n * 2 ^ (e - 52)` with `n` even. -/
theorem roundDouble_eq_of_tie {α : Type} [LinearOrderedField α] [FloorRing α] (x y : α)
    (e f n : ℤ) (hlo : (2 : α) ^ e ≤ |x|) (hhi : |x| < (2 : α) ^ (e + 1))
    (hq : x / (2 : α) ^ (e - 52) = (f : α) + 1 / 2)
    (hn : n = if f % 2 = 0 then f else f + 1) (hy : y = (n : α) * (2 : α) ^ (e - 52)) :
    roundDouble x = y := by
  have hpos : (0 : α) < |x| := lt_of_lt_of_le (zpow_pos (by norm_num) _) hlo
  have hx : x ≠ 0 := abs_pos.mp hpos
  have hlog : Int.log 2 |x| = e := by
    apply le_antisymm
    · have := (Int.lt_zpow_iff_log_lt (b := 2) (by norm_num) hpos).mp (by simpa using hhi)
      omega
    · exact (Int.zpow_le_iff_le_log (b := 2) (by norm_num) hpos).mp (by simpa using hlo)
  unfold roundDouble
  rw [if_neg hx, hy]
  simp only [hlog]
  rw [hq, roundHalfEven_tie, ← hn]

/-! ### The rounded functions without rounding -/

/-- With no rounding the rounded `updateLoop` is the exact one. -/
theorem Deck.updateLoopFl_id {α : Type} [LinearOrderedField α] [FloorRing α] (d : Deck α) :
    d.updateLoopFl id = d.updateLoop := rfl

/-- With no rounding the rounded `syncToOther` is the exact one. -/
theorem Deck.syncToOtherFl_id {α : Type} [LinearOrderedField α] [FloorRing α] (d : Deck α)
    (other : Option (Deck α)) : d.syncToOtherFl id other = d.syncToOther other := by
  cases other <;> rfl

/-! ### Loop tiling in rounded arithmetic -/

/-- A rounding with relative error `u` moves a non-negative value by at most `u * x`. -/
theorem fl_bounds_of_nonneg {α : Type} [LinearOrderedField α] (fl : α → α) (u : α)
    (hfl : ∀ x, |fl x - x| ≤ u * |x|) (x : α) (hx : 0 ≤ x) :
    x - u * x ≤ fl x ∧ fl x ≤ x + u * x := by
  have h := hfl x
  rw [abs_of_nonneg hx, abs_le] at h
  constructor <;> linarith

/-- A rounding with relative error below one keeps the sign. -/
theorem fl_sign {α : Type} [LinearOrderedField α] (fl : α → α) (u : α)
    (hu' : u ≤ 1 / 100) (hfl : ∀ x, |fl x - x| ≤ u * |x|) (x : α) :
    (0 ≤ x → 0 ≤ fl x) ∧ (x ≤ 0 → fl x ≤ 0) ∧ (0 < x → 0 < fl x) ∧ fl 0 = 0 := by
  have h0 : fl 0 = 0 := by
    have h := hfl 0
    simpa using h
  refine ⟨fun hx => ?_, fun hx => ?_, fun hx => ?_, h0⟩
  · have h := (fl_bounds_of_nonneg fl u hfl x hx).1
    have : u * x ≤ 1 / 100 * x := mul_le_mul_of_nonneg_right hu' hx
    linarith
  · have h := hfl x
    rw [abs_of_nonpos hx, abs_le] at h
    have : u * -x ≤ 1 / 100 * -x := mul_le_mul_of_nonneg_right hu' (by linarith)
    linarith
  · have h := (fl_bounds_of_nonneg fl u hfl x hx.le).1
    have : u * x ≤ 1 / 100 * x := mul_le_mul_of_nonneg_right hu' hx.le
    linarith

/-- The state written by the rounded `updateLoop` on an engaged loop. -/
theorem Deck.updateLoopFl_engaged {α : Type} [LinearOrderedField α] [FloorRing α]
    (fl : α → α) (d : Deck α) (h4 : d.loop4 = true) :
    (d.updateLoopFl fl).loopStart = some (fl (d.beat1 +
        fl (((⌊fl (max 0 (fl (d.currentTime - d.beat1)) / fl (4 * d.secondsPerBeatFl fl))⌋ : ℤ) : α)
          * fl (4 * d.secondsPerBeatFl fl)))) ∧
      (d.updateLoopFl fl).loopEnd = some (fl (fl (d.beat1 +
        fl (((⌊fl (max 0 (fl (d.currentTime - d.beat1)) / fl (4 * d.secondsPerBeatFl fl))⌋ : ℤ) : α)
          * fl (4 * d.secondsPerBeatFl fl))) + fl (4 * d.secondsPerBeatFl fl))) := by
  simp [Deck.updateLoopFl, h4]

/-- The error analysis of the tile: from the rounded difference `r`, quotient `q`,
product `m` and sum `s` the start `s` is within `6 * u * (|now| + |beat1|)` of a tile
containing `now`. -/
theorem tile_error_bounds {α : Type} [LinearOrderedField α] (u now b1 len r q kc m s : α)
    (hu : 0 ≤ u) (hu' : u ≤ 1 / 100) (hge : b1 ≤ now) (hlen : 0 < len)
    (hr : (now - b1) - u * (now - b1) ≤ r ∧ r ≤ (now - b1) + u * (now - b1))
    (hq : r / len - u * (r / len) ≤ q ∧ q ≤ r / len + u * (r / len))
    (hk : 0 ≤ kc ∧ kc ≤ q ∧ q < kc + 1)
    (hm : kc * len - u * (kc * len) ≤ m ∧ m ≤ kc * len + u * (kc * len))
    (hs : |s - (b1 + m)| ≤ u * |b1 + m|) :
    s ≤ now + 6 * u * (|now| + |b1|) ∧ now < s + len + 6 * u * (|now| + |b1|) := by
  obtain ⟨r0, hr0⟩ : ∃ r0, r0 = now - b1 := ⟨_, rfl⟩
  rw [← hr0] at hr
  have hr0n : 0 ≤ r0 := by rw [hr0]; linarith
  obtain ⟨a, ha⟩ : ∃ a, a = u * r0 := ⟨_, rfl⟩
  have han : 0 ≤ a := by rw [ha]; exact mul_nonneg hu hr0n
  have hua : u * a ≤ 1 / 100 * a := mul_le_mul_of_nonneg_right hu' han
  have huan : 0 ≤ u * a := mul_nonneg hu han
  rw [← ha] at hr
  -- the quotient times the length is the rounded difference
  have hql : r / len * len = r := div_mul_cancel₀ _ hlen.ne.symm
  have hq1 : q * len ≤ r + u * r := by
    have := mul_le_mul_of_nonneg_right hq.2 hlen.le
    calc q * len ≤ (r / len + u * (r / len)) * len := this
      _ = r / len * len + u * (r / len * len) := by ring
      _ = r + u * r := by rw [hql]
  have hq2 : r - u * r ≤ q * len := by
    have := mul_le_mul_of_nonneg_right hq.1 hlen.le
    calc r - u * r = r / len * len - u * (r / len * len) := by rw [hql]
      _ = (r / len - u * (r / len)) * len := by ring
      _ ≤ q * len := this
  have hk1 : kc * len ≤ q * len := mul_le_mul_of_nonneg_right hk.2.1 hlen.le
  have hk2 : q * len < kc * len + len := by
    have := mul_lt_mul_of_pos_right hk.2.2 hlen
    calc q * len < (kc + 1) * len := this
      _ = kc * len + len := by ring
  -- products with `u`, each bounded by a multiple of `a`
  have hur : u * r ≤ a + u * a := by
    have := mul_le_mul_of_nonneg_left hr.2 hu
    calc u * r ≤ u * (r0 + a) := this
      _ = a + u * a := by rw [ha]; ring
  have hm0 : kc * len ≤ r0 + a + (a + u * a) := by linarith
  have hm0n : 0 ≤ kc * len := mul_nonneg hk.1 hlen.le
  have hum0 : u * (kc * len) ≤ a + 3 * (u * a) := by
    have := mul_le_mul_of_nonneg_left hm0 hu
    have hsq : u * (u * a) ≤ u * a := by
      have := mul_le_mul_of_nonneg_left hua hu
      linarith
    calc u * (kc * len) ≤ u * (r0 + a + (a + u * a)) := this
      _ = a + 2 * (u * a) + u * (u * a) := by rw [ha]; ring
      _ ≤ a + 3 * (u * a) := by linarith
  have hmn : 0 ≤ m := by
    have : u * (kc * len) ≤ 1 / 100 * (kc * len) := mul_le_mul_of_nonneg_right hu' hm0n
    linarith [hm.1]
  have hmu : m ≤ r0 + 4 * a := by linarith [hm.2]
  have hum : u * m ≤ a + 4 * (u * a) := by
    have := mul_le_mul_of_nonneg_left hmu hu
    calc u * m ≤ u * (r0 + 4 * a) := this
      _ = a + 4 * (u * a) := by rw [ha]; ring
  -- the last rounding
  have hsabs : |b1 + m| ≤ |b1| + m := by
    calc |b1 + m| ≤ |b1| + |m| := abs_add _ _
      _ = |b1| + m := by rw [abs_of_nonneg hmn]
  have hs' : |s - (b1 + m)| ≤ u * |b1| + u * m := by
    calc |s - (b1 + m)| ≤ u * |b1 + m| := hs
      _ ≤ u * (|b1| + m) := mul_le_mul_of_nonneg_left hsabs hu
      _ = u * |b1| + u * m := by ring
  rw [abs_le] at hs'
  have hra : a ≤ u * (|now| + |b1|) := by
    rw [ha]
    refine mul_le_mul_of_nonneg_left ?_ hu
    rw [hr0]
    have h1 := le_abs_self now
    have h2 := neg_abs_le b1
    linarith
  have hub : 0 ≤ u * |b1| := mul_nonneg hu (abs_nonneg _)
  have hun : 0 ≤ u * |now| := mul_nonneg hu (abs_nonneg _)
  have hexp : 6 * u * (|now| + |b1|) = 6 * (u * |now|) + 6 * (u * |b1|) := by ring
  have hexp2 : u * (|now| + |b1|) = u * |now| + u * |b1| := by ring
  constructor
  · linarith [hs'.2]
  · linarith [hs'.1, hr.1]

/-- C5, amended: for a deck with positive bpm and engaged loop, in arithmetic rounded by
`fl` with relative error `u` (`u = 2⁻⁵³` for JavaScript numbers, `u = 0` for exact
arithmetic), with `len` the computed `4 * secondsPerBeat`: `updateLoop` sets `loopStart`
to the rounded `beat1 + k * len` for a natural number `k`, the integer part of the
rounded quotient `(now - beat1) / len`; when `now` is at or after `beat1` the tile
contains `now` up to `6 * u * (|now| + |beat1|)`; when `now` is before `beat1` the loop
starts at `beat1`. -/
theorem updateLoopFl_tile {α : Type} [LinearOrderedField α] [FloorRing α] (fl : α → α)
    (u : α) (d : Deck α) (hu : 0 ≤ u) (hu' : u ≤ 1 / 100)
    (hfl : ∀ x, |fl x - x| ≤ u * |x|) (hbpm : 0 < d.bpm) (h4 : d.loop4 = true)
    (hb1 : fl d.beat1 = d.beat1) :
    0 < fl (4 * d.secondsPerBeatFl fl) ∧
    ∃ k : ℕ, ∃ s : α, (d.updateLoopFl fl).loopStart = some s ∧
      (d.updateLoopFl fl).loopEnd = some (fl (s + fl (4 * d.secondsPerBeatFl fl))) ∧
      s = fl (d.beat1 + fl ((k : α) * fl (4 * d.secondsPerBeatFl fl))) ∧
      (d.beat1 ≤ d.currentTime →
        (k : α) ≤ fl (fl (d.currentTime - d.beat1) / fl (4 * d.secondsPerBeatFl fl)) ∧
        fl (fl (d.currentTime - d.beat1) / fl (4 * d.secondsPerBeatFl fl)) < (k : α) + 1 ∧
        s ≤ d.currentTime + 6 * u * (|d.currentTime| + |d.beat1|) ∧
        d.currentTime <
          s + fl (4 * d.secondsPerBeatFl fl) + 6 * u * (|d.currentTime| + |d.beat1|)) ∧
      (d.currentTime < d.beat1 → k = 0 ∧ s = d.beat1) := by
  have hsign := fl_sign fl u hu' hfl
  have hspb : 0 < d.secondsPerBeatFl fl := by
    unfold Deck.secondsPerBeatFl
    rw [orDefault_of_ne _ _ hbpm.ne.symm]
    exact (hsign _).2.2.1 (by positivity)
  have hlen : 0 < fl (4 * d.secondsPerBeatFl fl) := (hsign _).2.2.1 (by positivity)
  refine ⟨hlen, ?_⟩
  obtain ⟨hstart, hend⟩ := d.updateLoopFl_engaged fl h4
  set len := fl (4 * d.secondsPerBeatFl fl) with hlen_def
  set rel := max 0 (fl (d.currentTime - d.beat1)) with hrel_def
  have hrel : 0 ≤ rel := le_max_left _ _
  have hq : 0 ≤ fl (rel / len) := (hsign _).1 (div_nonneg hrel hlen.le)
  have hk : 0 ≤ ⌊fl (rel / len)⌋ := Int.floor_nonneg.mpr hq
  have hcast : ((⌊fl (rel / len)⌋.toNat : ℕ) : α) = ((⌊fl (rel / len)⌋ : ℤ) : α) := by
    have h := Int.toNat_of_nonneg hk
    exact_mod_cast congrArg (fun z : ℤ => (z : α)) h
  refine ⟨⌊fl (rel / len)⌋.toNat, _, hstart, hend, by rw [hcast], ?_, ?_⟩
  · intro hge
    have hr0 : 0 ≤ d.currentTime - d.beat1 := sub_nonneg.mpr hge
    have hrn : 0 ≤ fl (d.currentTime - d.beat1) := (hsign _).1 hr0
    have hrel_eq : rel = fl (d.currentTime - d.beat1) := max_eq_right hrn
    rw [hrel_eq] at hq hk hcast ⊢
    set r := fl (d.currentTime - d.beat1) with hr_def
    have hkc : (0 : α) ≤ ((⌊fl (r / len)⌋ : ℤ) : α) := by exact_mod_cast hk
    have hfloor1 := Int.floor_le (fl (r / len))
    have hfloor2 := Int.lt_floor_add_one (fl (r / len))
    have hb := tile_error_bounds u d.currentTime d.beat1 len r (fl (r / len))
      ((⌊fl (r / len)⌋ : ℤ) : α)
      (fl (((⌊fl (r / len)⌋ : ℤ) : α) * len))
      (fl (d.beat1 + fl (((⌊fl (r / len)⌋ : ℤ) : α) * len)))
      hu hu' hge hlen (fl_bounds_of_nonneg fl u hfl _ hr0)
      (fl_bounds_of_nonneg fl u hfl _ (div_nonneg hrn hlen.le))
      ⟨hkc, hfloor1, hfloor2⟩
      (fl_bounds_of_nonneg fl u hfl _ (mul_nonneg hkc hlen.le))
      (hfl _)
    rw [hcast]
    exact ⟨hfloor1, hfloor2, hb.1, hb.2⟩
  · intro hlt
    have hrn : fl (d.currentTime - d.beat1) ≤ 0 := (hsign _).2.1 (sub_nonpos.mpr hlt.le)
    have hrel_eq : rel = 0 := max_eq_left hrn
    have h0 : fl (0 : α) = 0 := (hsign 0).2.2.2
    rw [hrel_eq, zero_div, h0]
    simp [h0, hb1]

/-- C5 as stated fails on JavaScript numbers: at 87 BPM with the downbeat at 0 s and the
current time 80 s, `len` is `2.7586206896551726`, the rounded quotient `80 / len` is
`28.999999999999996`, and `updateLoop` writes the tile `[77.24137931034483, 80]`, which
ends at the current time instead of containing it. -/
theorem updateLoop_tile_boundary :
    0 < deck87.bpm ∧ deck87.loop4 = true ∧ deck87.beat1 ≤ deck87.currentTime ∧
      roundDouble (4 * deck87.secondsPerBeatFl roundDouble) = (1552965388748447 / 562949953421312) ∧
      (deck87.updateLoopFl roundDouble).loopStart = some (1358844715154891 / 17592186044416) ∧
      (deck87.updateLoopFl roundDouble).loopEnd = some 80 ∧
      ¬ (deck87.currentTime < (1358844715154891 / 17592186044416) + (1552965388748447 / 562949953421312)) ∧
      ¬ (deck87.currentTime < 80) := by
  have e1 : roundDouble (60 / 87 : ℚ) = (1552965388748447 / 2251799813685248) :=
    roundDouble_eq_of _ _ (-1) (6211861554993788) (by norm_num [abs_of_pos]) (by norm_num [abs_of_pos])
      (by norm_num [abs_lt]) (by norm_num)
  have e2 : roundDouble (4 * (1552965388748447 / 2251799813685248) : ℚ) = (1552965388748447 / 562949953421312) :=
    roundDouble_eq_of _ _ (1) (6211861554993788) (by norm_num [abs_of_pos]) (by norm_num [abs_of_pos])
      (by norm_num [abs_lt]) (by norm_num)
  have e3 : roundDouble (80 - 0 : ℚ) = 80 :=
    roundDouble_eq_of _ _ (6) (5629499534213120) (by norm_num [abs_of_pos]) (by norm_num [abs_of_pos])
      (by norm_num [abs_lt]) (by norm_num)
  have e4 : roundDouble (80 / (1552965388748447 / 562949953421312) : ℚ) = (8162774324609023 / 281474976710656) :=
    roundDouble_eq_of _ _ (4) (8162774324609023) (by norm_num [abs_of_pos]) (by norm_num [abs_of_pos])
      (by norm_num [abs_lt]) (by norm_num)
  have e5 : ⌊((8162774324609023 / 281474976710656) : ℚ)⌋ = 28 := by
    rw [Int.floor_eq_iff]
    norm_num
  have e5c : ((28 : ℤ) : ℚ) = 28 := by norm_num
  have e6 : roundDouble (28 * (1552965388748447 / 562949953421312) : ℚ) = (1358844715154891 / 17592186044416) :=
    roundDouble_eq_of_tie _ _ (6) (5435378860619564) (5435378860619564) (by norm_num [abs_of_pos])
      (by norm_num [abs_of_pos]) (by norm_num) (by decide) (by norm_num)
  have e7 : roundDouble (0 + (1358844715154891 / 17592186044416) : ℚ) = (1358844715154891 / 17592186044416) :=
    roundDouble_eq_of _ _ (6) (5435378860619564) (by norm_num [abs_of_pos]) (by norm_num [abs_of_pos])
      (by norm_num [abs_lt]) (by norm_num)
  have e8 : roundDouble ((1358844715154891 / 17592186044416) + (1552965388748447 / 562949953421312) : ℚ) = 80 :=
    roundDouble_eq_of _ _ (6) (5629499534213120) (by norm_num [abs_of_pos]) (by norm_num [abs_of_pos])
      (by norm_num [abs_lt]) (by norm_num)
  have hbpm : deck87.bpm = 87 := rfl
  have hb1 : deck87.beat1 = 0 := rfl
  have hct : deck87.currentTime = 80 := rfl
  have hmax : max (0 : ℚ) 80 = 80 := by norm_num
  have hspb : deck87.secondsPerBeatFl roundDouble = (1552965388748447 / 2251799813685248) := by
    unfold Deck.secondsPerBeatFl
    rw [hbpm, orDefault_of_ne _ _ (by norm_num), e1]
  obtain ⟨hs, he⟩ := deck87.updateLoopFl_engaged roundDouble rfl
  rw [hspb, hb1, hct, e2, e3, hmax, e4, e5, e5c, e6, e7] at hs he
  rw [e8] at he
  refine ⟨by rw [hbpm]; norm_num, rfl, by rw [hb1, hct]; norm_num, by rw [hspb, e2], hs, he,
    ?_, ?_⟩
  · rw [hct]
    norm_num
  · rw [hct]
    norm_num

/-- Witness of the amended C5 on JavaScript numbers, at the deck of the boundary case. -/
theorem updateLoopFl_tile_witness :
    0 < roundDouble (4 * deck87.secondsPerBeatFl roundDouble) ∧
    ∃ k : ℕ, ∃ s : ℚ, (deck87.updateLoopFl roundDouble).loopStart = some s ∧
      (deck87.updateLoopFl roundDouble).loopEnd =
        some (roundDouble (s + roundDouble (4 * deck87.secondsPerBeatFl roundDouble))) ∧
      s = roundDouble (deck87.beat1 +
        roundDouble ((k : ℚ) * roundDouble (4 * deck87.secondsPerBeatFl roundDouble))) ∧
      (deck87.beat1 ≤ deck87.currentTime →
        (k : ℚ) ≤ roundDouble (roundDouble (deck87.currentTime - deck87.beat1) /
          roundDouble (4 * deck87.secondsPerBeatFl roundDouble)) ∧
        roundDouble (roundDouble (deck87.currentTime - deck87.beat1) /
          roundDouble (4 * deck87.secondsPerBeatFl roundDouble)) < (k : ℚ) + 1 ∧
        s ≤ deck87.currentTime + 6 * (1 / 2 ^ 53) * (|deck87.currentTime| + |deck87.beat1|) ∧
        deck87.currentTime < s + roundDouble (4 * deck87.secondsPerBeatFl roundDouble) +
          6 * (1 / 2 ^ 53) * (|deck87.currentTime| + |deck87.beat1|)) ∧
      (deck87.currentTime < deck87.beat1 → k = 0 ∧ s = deck87.beat1) :=
  updateLoopFl_tile roundDouble (1 / 2 ^ 53) deck87 (by norm_num) (by norm_num)
    roundDouble_error (by norm_num [deck87, Deck.init]) rfl (by simp [deck87, Deck.init, roundDouble])

/-! ### Tempo match in rounded arithmetic -/

/-- A rounding with relative error `u` moves a value of size at most `b` by at most
`u * b`, in both directions. -/
theorem fl_close {α : Type} [LinearOrderedField α] (fl : α → α) (u : α) (hu : 0 ≤ u)
    (hfl : ∀ x, |fl x - x| ≤ u * |x|) (x b : α) (hx : |x| ≤ b) :
    x - u * b ≤ fl x ∧ fl x ≤ x + u * b := by
  have h := (hfl x).trans (mul_le_mul_of_nonneg_left hx hu)
  rw [abs_le] at h
  constructor <;> linarith

/-- Clamping to an interval that contains `t` does not move a value away from `t`. -/
theorem clamp_close {α : Type} [LinearOrderedField α] (p lo hi t : α) (h1 : lo ≤ t)
    (h2 : t ≤ hi) :
    lo ≤ clamp p lo hi ∧ clamp p lo hi ≤ hi ∧ |clamp p lo hi - t| ≤ |p - t| := by
  have hlh : lo ≤ hi := h1.trans h2
  unfold clamp
  refine ⟨le_min hlh (le_max_left _ _), min_le_left _ _, ?_⟩
  rcases le_total p lo with hp | hp
  · rw [max_eq_left hp, min_eq_right hlh, abs_of_nonpos (by linarith),
      abs_of_nonpos (by linarith)]
    linarith
  · rw [max_eq_right hp]
    rcases le_total p hi with hp' | hp'
    · rw [min_eq_right hp']
    · rw [min_eq_left hp', abs_of_nonneg (by linarith), abs_of_nonneg (by linarith)]
      linarith

/-- The chain of roundings of the tempo match on plain numbers: `ρ, s, p0` are the
rounded ratio, difference and percentage, `c` the clamped and `p` the two-decimal
value, `v` the text read back, `w, x, y` the roundings leading to the rate. -/
theorem sync_rate_chain {α : Type} [LinearOrderedField α] (u r ρ s p0 c p v w x y : α)
    (hu : 0 ≤ u) (hu' : u ≤ 1 / 1000) (hlo : 92 / 100 ≤ r) (hhi : r ≤ 108 / 100)
    (h1 : ∀ b, |r| ≤ b → r - u * b ≤ ρ ∧ ρ ≤ r + u * b)
    (h2 : ∀ b, |ρ - 1| ≤ b → ρ - 1 - u * b ≤ s ∧ s ≤ ρ - 1 + u * b)
    (h3 : ∀ b, |s * 100| ≤ b → s * 100 - u * b ≤ p0 ∧ p0 ≤ s * 100 + u * b)
    (h4 : |c - (r - 1) * 100| ≤ |p0 - (r - 1) * 100|)
    (h5 : |p - c| ≤ 1 / 200)
    (h6 : ∀ b, |p| ≤ b → p - u * b ≤ v ∧ v ≤ p + u * b)
    (h7 : ∀ b, |v / 100| ≤ b → v / 100 - u * b ≤ w ∧ w ≤ v / 100 + u * b)
    (h8 : ∀ b, |1 + w| ≤ b → 1 + w - u * b ≤ x ∧ x ≤ 1 + w + u * b)
    (h9 : ∀ b, |x * 1| ≤ b → x * 1 - u * b ≤ y ∧ y ≤ x * 1 + u * b) :
    |v - (r - 1) * 100| ≤ 1 / 200 + 136 * u ∧ |y - r| ≤ 1 / 20000 + 7 * u := by
  obtain ⟨a1, b1⟩ := h1 (108 / 100) (abs_le.mpr ⟨by linarith only [hlo], hhi⟩)
  obtain ⟨a2, b2⟩ := h2 (9 / 100)
    (abs_le.mpr ⟨by linarith only [a1, hlo, hu, hu'], by linarith only [b1, hhi, hu, hu']⟩)
  have e2 : r - 1 - 117 / 100 * u ≤ s ∧ s ≤ r - 1 + 117 / 100 * u :=
    ⟨by linarith only [a1, a2, hu], by linarith only [b1, b2, hu]⟩
  obtain ⟨a3, b3⟩ := h3 10
    (abs_le.mpr ⟨by linarith only [e2.1, hlo, hu, hu'], by linarith only [e2.2, hhi, hu, hu']⟩)
  have hp : |p0 - (r - 1) * 100| ≤ 127 * u :=
    abs_le.mpr ⟨by linarith only [a3, e2.1], by linarith only [b3, e2.2]⟩
  obtain ⟨c1, c2⟩ := abs_le.mp (h4.trans hp)
  obtain ⟨d1, d2⟩ := abs_le.mp h5
  have e5 : (r - 1) * 100 - 1 / 200 - 127 * u ≤ p ∧ p ≤ (r - 1) * 100 + 1 / 200 + 127 * u :=
    ⟨by linarith only [c1, d1], by linarith only [c2, d2]⟩
  obtain ⟨a6, b6⟩ := h6 9
    (abs_le.mpr ⟨by linarith only [e5.1, hlo, hu, hu'], by linarith only [e5.2, hhi, hu, hu']⟩)
  have e6 : (r - 1) * 100 - 1 / 200 - 136 * u ≤ v ∧ v ≤ (r - 1) * 100 + 1 / 200 + 136 * u :=
    ⟨by linarith only [e5.1, a6], by linarith only [e5.2, b6]⟩
  obtain ⟨a7, b7⟩ := h7 (1 / 10)
    (abs_le.mpr ⟨by linarith only [e6.1, hlo, hu, hu'], by linarith only [e6.2, hhi, hu, hu']⟩)
  have e7 : r - 1 - 1 / 20000 - 3 / 2 * u ≤ w ∧ w ≤ r - 1 + 1 / 20000 + 3 / 2 * u :=
    ⟨by linarith only [e6.1, a7, hu], by linarith only [e6.2, b7, hu]⟩
  obtain ⟨a8, b8⟩ := h8 2
    (abs_le.mpr ⟨by linarith only [e7.1, hlo, hu, hu'], by linarith only [e7.2, hhi, hu, hu']⟩)
  have e8 : r - 1 / 20000 - 7 / 2 * u ≤ x ∧ x ≤ r + 1 / 20000 + 7 / 2 * u :=
    ⟨by linarith only [e7.1, a8], by linarith only [e7.2, b8]⟩
  obtain ⟨a9, b9⟩ := h9 2
    (abs_le.mpr ⟨by linarith only [e8.1, hlo, hu, hu'], by linarith only [e8.2, hhi, hu, hu']⟩)
  exact ⟨abs_le.mpr ⟨by linarith only [e6.1, hu], by linarith only [e6.2, hu]⟩,
    abs_le.mpr ⟨by linarith only [e8.1, a9, hu], by linarith only [e8.2, b9, hu]⟩⟩

/-- The error analysis of the tempo match: for a tempo ratio `r` within 8 % of one, the
slider value is within `0.005 + 136 u` of the exact percentage and the playback rate
within `0.00005 + 7 u` of `r`. -/
theorem sync_rate_error {α : Type} [LinearOrderedField α] [FloorRing α] (fl : α → α)
    (u r : α) (hu : 0 ≤ u) (hu' : u ≤ 1 / 1000) (hfl : ∀ x, |fl x - x| ≤ u * |x|)
    (hlo : 92 / 100 ≤ r) (hhi : r ≤ 108 / 100) :
    |fl (toFixed2 (clamp (fl (fl (fl r - 1) * 100)) (-8) 8)) - (r - 1) * 100| ≤
        1 / 200 + 136 * u ∧
      |fl (fl (1 + fl (fl (toFixed2 (clamp (fl (fl (fl r - 1) * 100)) (-8) 8)) / 100)) * 1) - r|
        ≤ 1 / 20000 + 7 * u := by
  have hc := fl_close fl u hu hfl
  exact sync_rate_chain u r _ _ _ _ _ _ _ _ _ hu hu' hlo hhi (hc _) (hc _) (hc _)
    (clamp_close _ (-8) 8 _ (by linarith) (by linarith)).2.2 (toFixed2_close _)
    (hc _) (hc _) (hc _) (hc _)

/-- What the rounded `syncToOther` writes to the tempo slider and the playback rate when
no nudge is active. -/
theorem Deck.syncToOtherFl_rate {α : Type} [LinearOrderedField α] [FloorRing α]
    (fl : α → α) (d o : Deck α) (hd : 0 < d.bpm) (ho : 0 < o.bpm)
    (hn : d.nudgeRate = none ∨ d.nudgeRate = some 1) :
    (d.syncToOtherFl fl (some o)).tempo =
        some (fl (toFixed2 (clamp (fl (fl (fl (o.bpm / d.bpm) - 1) * 100)) (-8) 8))) ∧
      (d.syncToOtherFl fl (some o)).playbackRate =
        fl (fl (1 + fl (fl (toFixed2 (clamp (fl (fl (fl (o.bpm / d.bpm) - 1) * 100)) (-8) 8))
          / 100)) * 1) := by
  have hnr : orDefault (d.nudgeRate.getD 0) 1 = 1 := by
    rcases hn with h | h <;> simp [h, orDefault]
  simp only [Deck.syncToOtherFl, Deck.updatePlaybackRateFl, orDefault_of_ne _ _ hd.ne.symm,
    orDefault_of_ne _ _ ho.ne.symm, orDefault_zero, Option.getD_some, hnr, and_self]

/-- C13, amended: in arithmetic rounded by `fl` with relative error `u` (`u = 2⁻⁵³` for
JavaScript numbers, `u = 0` for exact arithmetic), when the other deck's bpm is within
8 % of this deck's and no nudge is active, `syncToOther` writes to the tempo slider the
two-decimal rounding of the computed percentage, a value within `0.005 + 136 u` of
`(other.bpm / this.bpm - 1) * 100`, and the effective tempo `this.bpm * playbackRate`
is within `this.bpm * (0.00005 + 7 u)` of `other.bpm`. -/
theorem syncToOtherFl_bpm_match {α : Type} [LinearOrderedField α] [FloorRing α]
    (fl : α → α) (u : α) (d o : Deck α) (hu : 0 ≤ u) (hu' : u ≤ 1 / 1000)
    (hfl : ∀ x, |fl x - x| ≤ u * |x|) (hd : 0 < d.bpm) (ho : 0 < o.bpm)
    (hlo : 92 / 100 ≤ o.bpm / d.bpm) (hhi : o.bpm / d.bpm ≤ 108 / 100)
    (hn : d.nudgeRate = none ∨ d.nudgeRate = some 1) :
    ∃ pct : α, (d.syncToOtherFl fl (some o)).tempo = some pct ∧
      pct = fl (toFixed2 (clamp (fl (fl (fl (o.bpm / d.bpm) - 1) * 100)) (-8) 8)) ∧
      |pct - (o.bpm / d.bpm - 1) * 100| ≤ 1 / 200 + 136 * u ∧
      (d.syncToOtherFl fl (some o)).playbackRate = fl (fl (1 + fl (pct / 100)) * 1) ∧
      |d.bpm * (d.syncToOtherFl fl (some o)).playbackRate - o.bpm| ≤
        d.bpm * (1 / 20000 + 7 * u) := by
  obtain ⟨ht, hr⟩ := d.syncToOtherFl_rate fl o hd ho hn
  obtain ⟨e1, e2⟩ := sync_rate_error fl u (o.bpm / d.bpm) hu hu' hfl hlo hhi
  refine ⟨_, ht, rfl, e1, hr, ?_⟩
  have hob : d.bpm * (o.bpm / d.bpm) = o.bpm := mul_div_cancel₀ _ hd.ne.symm
  have hdiff : d.bpm * (d.syncToOtherFl fl (some o)).playbackRate - o.bpm =
      d.bpm * ((d.syncToOtherFl fl (some o)).playbackRate - o.bpm / d.bpm) := by
    linear_combination hob
  rw [hdiff, abs_mul, abs_of_pos hd, hr]
  exact mul_le_mul_of_nonneg_left e2 hd.le

/-- Witness of the amended C13 on JavaScript numbers: a 125 BPM deck synced to a 130 BPM
deck. -/
theorem syncToOtherFl_bpm_match_witness :
    ∃ pct : ℚ, (bpm125.syncToOtherFl roundDouble (some bpm130)).tempo = some pct ∧
      pct = roundDouble (toFixed2 (clamp (roundDouble (roundDouble
        (roundDouble (bpm130.bpm / bpm125.bpm) - 1) * 100)) (-8) 8)) ∧
      |pct - (bpm130.bpm / bpm125.bpm - 1) * 100| ≤ 1 / 200 + 136 * (1 / 2 ^ 53) ∧
      (bpm125.syncToOtherFl roundDouble (some bpm130)).playbackRate =
        roundDouble (roundDouble (1 + roundDouble (pct / 100)) * 1) ∧
      |bpm125.bpm * (bpm125.syncToOtherFl roundDouble (some bpm130)).playbackRate - bpm130.bpm|
        ≤ bpm125.bpm * (1 / 20000 + 7 * (1 / 2 ^ 53)) :=
  syncToOtherFl_bpm_match roundDouble (1 / 2 ^ 53) bpm125 bpm130 (by norm_num) (by norm_num)
    roundDouble_error (by norm_num [bpm125, Deck.init]) (by norm_num [bpm130, Deck.init])
    (by norm_num [bpm125, bpm130, Deck.init]) (by norm_num [bpm125, bpm130, Deck.init])
    (Or.inl rfl)

/-- C13 as stated fails on JavaScript numbers: a 128 BPM deck synced to a 125 BPM deck
(ratio 0.9765625, no nudge active) computes the percentage `-2.34375`, writes `-2.34`
to the slider and plays at rate `0.9766`, an effective tempo of about `125.0048` BPM and
not 125. -/
theorem sync_bpm_not_exact :
    0 < bpm128.bpm ∧ 0 < bpm125.bpm ∧ 92 / 100 ≤ bpm125.bpm / bpm128.bpm ∧
      bpm125.bpm / bpm128.bpm ≤ 108 / 100 ∧ bpm128.nudgeRate = none ∧
      (bpm128.syncToOtherFl roundDouble (some bpm125)).tempo =
        some (roundDouble (-(234 / 100))) ∧
      (bpm128.syncToOtherFl roundDouble (some bpm125)).playbackRate = (8796430792180053 / 9007199254740992) ∧
      roundDouble (bpm128.bpm * (bpm128.syncToOtherFl roundDouble (some bpm125)).playbackRate)
        = (8796430792180053 / 70368744177664) ∧
      bpm128.bpm * (bpm128.syncToOtherFl roundDouble (some bpm125)).playbackRate ≠
        bpm125.bpm := by
  have hb : bpm128.bpm = 128 := rfl
  have hb2 : bpm125.bpm = 125 := rfl
  have e1 : roundDouble (125 / 128 : ℚ) = (125 / 128) :=
    roundDouble_eq_of _ _ (-1) (8796093022208000) (by norm_num [abs_of_pos]) (by norm_num [abs_of_pos])
      (by norm_num [abs_lt]) (by norm_num)
  have e2 : roundDouble ((125 / 128) - 1 : ℚ) = (-(3 / 128)) :=
    roundDouble_eq_of _ _ (-6) (-6755399441055744) (by norm_num [abs_of_neg]) (by norm_num [abs_of_neg])
      (by norm_num [abs_lt]) (by norm_num)
  have e3 : roundDouble ((-(3 / 128)) * 100 : ℚ) = (-(75 / 32)) :=
    roundDouble_eq_of _ _ (1) (-5277655813324800) (by norm_num [abs_of_neg]) (by norm_num [abs_of_neg])
      (by norm_num [abs_lt]) (by norm_num)
  have e4 : clamp ((-(75 / 32)) : ℚ) (-8) 8 = (-(75 / 32)) := by
    unfold clamp
    rw [max_eq_right (by norm_num), min_eq_right (by norm_num)]
  have e5f : ⌊(-(-(75 / 32)) * 100 + 1 / 2 : ℚ)⌋ = 234 := by
    rw [Int.floor_eq_iff]
    norm_num
  have e5 : toFixed2 ((-(75 / 32)) : ℚ) = (-(117 / 50)) := by
    unfold toFixed2
    rw [if_pos (by norm_num), e5f]
    norm_num
  have e6 : roundDouble ((-(117 / 50)) : ℚ) = (-(658651445502935 / 281474976710656)) :=
    roundDouble_eq_of _ _ (1) (-5269211564023480) (by norm_num [abs_of_neg]) (by norm_num [abs_of_neg])
      (by norm_num [abs_lt]) (by norm_num)
  have e7 : roundDouble ((-(658651445502935 / 281474976710656)) / 100 : ℚ) = (-(3372295400975027 / 144115188075855872)) :=
    roundDouble_eq_of _ _ (-6) (-6744590801950054) (by norm_num [abs_of_neg]) (by norm_num [abs_of_neg])
      (by norm_num [abs_lt]) (by norm_num)
  have e8 : roundDouble (1 + (-(3372295400975027 / 144115188075855872)) : ℚ) = (8796430792180053 / 9007199254740992) :=
    roundDouble_eq_of _ _ (-1) (8796430792180053) (by norm_num [abs_of_pos]) (by norm_num [abs_of_pos])
      (by norm_num [abs_lt]) (by norm_num)
  have e9 : roundDouble ((8796430792180053 / 9007199254740992) * 1 : ℚ) = (8796430792180053 / 9007199254740992) :=
    roundDouble_eq_of _ _ (-1) (8796430792180053) (by norm_num [abs_of_pos]) (by norm_num [abs_of_pos])
      (by norm_num [abs_lt]) (by norm_num)
  have e10 : roundDouble (128 * (8796430792180053 / 9007199254740992) : ℚ) = (8796430792180053 / 70368744177664) :=
    roundDouble_eq_of _ _ (6) (8796430792180053) (by norm_num [abs_of_pos]) (by norm_num [abs_of_pos])
      (by norm_num [abs_lt]) (by norm_num)
  have e6b : roundDouble (-(234 / 100) : ℚ) = (-(658651445502935 / 281474976710656)) := by
    rw [show (-(234 / 100) : ℚ) = (-(117 / 50)) by norm_num, e6]
  obtain ⟨ht, hr⟩ := bpm128.syncToOtherFl_rate roundDouble bpm125 (by rw [hb]; norm_num)
    (by rw [hb2]; norm_num) (Or.inl rfl)
  rw [hb, hb2, e1, e2, e3, e4, e5, e6] at ht hr
  rw [e7, e8, e9] at hr
  refine ⟨by rw [hb]; norm_num, by rw [hb2]; norm_num, by rw [hb, hb2]; norm_num,
    by rw [hb, hb2]; norm_num, rfl, by rw [ht, e6b], hr, by rw [hr, hb, e10], ?_⟩
  rw [hr, hb, hb2]
  norm_num

/-- Where the rounding decides the slider value: for a 125 BPM deck synced to a
125.15625 BPM deck the exact percentage is the tie `0.125`, which two-decimal rounding
takes to `0.13`; on JavaScript numbers the computed percentage is
`0.12499999999999734` and the slider gets `0.12`, the rate `1.0012`. -/
theorem syncToOtherFl_tie_slider :
    (bpm125.syncToOther (some bpmTie)).tempo = some (13 / 100) ∧
      (bpm125.syncToOtherFl roundDouble (some bpmTie)).tempo =
        some (roundDouble (12 / 100)) ∧
      (bpm125.syncToOtherFl roundDouble (some bpmTie)).playbackRate = (4509003946923341 / 4503599627370496) := by
  have hb : bpm125.bpm = 125 := rfl
  have hb2 : bpmTie.bpm = 4005 / 32 := rfl
  have e1 : roundDouble ((4005 / 32) / 125 : ℚ) = (4509229126904709 / 4503599627370496) :=
    roundDouble_eq_of _ _ (0) (4509229126904709) (by norm_num [abs_of_pos]) (by norm_num [abs_of_pos])
      (by norm_num [abs_lt]) (by norm_num)
  have e2 : roundDouble ((4509229126904709 / 4503599627370496) - 1 : ℚ) = (5629499534213 / 4503599627370496) :=
    roundDouble_eq_of _ _ (-10) (5764607523034112) (by norm_num [abs_of_pos]) (by norm_num [abs_of_pos])
      (by norm_num [abs_lt]) (by norm_num)
  have e3 : roundDouble ((5629499534213 / 4503599627370496) * 100 : ℚ) = (140737488355325 / 1125899906842624) :=
    roundDouble_eq_of _ _ (-4) (9007199254740800) (by norm_num [abs_of_pos]) (by norm_num [abs_of_pos])
      (by norm_num [abs_lt]) (by norm_num)
  have e4 : clamp ((140737488355325 / 1125899906842624) : ℚ) (-8) 8 = (140737488355325 / 1125899906842624) := by
    unfold clamp
    rw [max_eq_right (by norm_num), min_eq_right (by norm_num)]
  have e5f : ⌊((140737488355325 / 1125899906842624) * 100 + 1 / 2 : ℚ)⌋ = 12 := by
    rw [Int.floor_eq_iff]
    norm_num
  have e5 : toFixed2 ((140737488355325 / 1125899906842624) : ℚ) = (3 / 25) := by
    unfold toFixed2
    rw [if_neg (by norm_num), e5f]
    norm_num
  have e6 : roundDouble ((3 / 25) : ℚ) = (1080863910568919 / 9007199254740992) :=
    roundDouble_eq_of _ _ (-4) (8646911284551352) (by norm_num [abs_of_pos]) (by norm_num [abs_of_pos])
      (by norm_num [abs_lt]) (by norm_num)
  have e7 : roundDouble ((1080863910568919 / 9007199254740992) / 100 : ℚ) = (5534023222112865 / 4611686018427387904) :=
    roundDouble_eq_of _ _ (-10) (5534023222112865) (by norm_num [abs_of_pos]) (by norm_num [abs_of_pos])
      (by norm_num [abs_lt]) (by norm_num)
  have e8 : roundDouble (1 + (5534023222112865 / 4611686018427387904) : ℚ) = (4509003946923341 / 4503599627370496) :=
    roundDouble_eq_of _ _ (0) (4509003946923341) (by norm_num [abs_of_pos]) (by norm_num [abs_of_pos])
      (by norm_num [abs_lt]) (by norm_num)
  have e9 : roundDouble ((4509003946923341 / 4503599627370496) * 1 : ℚ) = (4509003946923341 / 4503599627370496) :=
    roundDouble_eq_of _ _ (0) (4509003946923341) (by norm_num [abs_of_pos]) (by norm_num [abs_of_pos])
      (by norm_num [abs_lt]) (by norm_num)
  have e6b : roundDouble (12 / 100 : ℚ) = (1080863910568919 / 9007199254740992) := by
    rw [show (12 / 100 : ℚ) = (3 / 25) by norm_num, e6]
  have hexact : toFixed2 (((4005 / 32 : ℚ) / 125 - 1) * 100) = 13 / 100 := by
    have hf : ⌊(((4005 / 32 : ℚ) / 125 - 1) * 100 * 100 + 1 / 2)⌋ = 13 := by
      rw [Int.floor_eq_iff]
      norm_num
    unfold toFixed2
    rw [if_neg (by norm_num), hf]
    norm_num
  obtain ⟨hx, _⟩ := bpm125.syncToOther_rate bpmTie (by rw [hb]; norm_num)
    (by rw [hb2]; norm_num) (by rw [hb, hb2]; norm_num) (by rw [hb, hb2]; norm_num)
    (Or.inl rfl)
  obtain ⟨ht, hr⟩ := bpm125.syncToOtherFl_rate roundDouble bpmTie (by rw [hb]; norm_num)
    (by rw [hb2]; norm_num) (Or.inl rfl)
  rw [hb, hb2, e1, e2, e3, e4, e5, e6] at ht hr
  rw [e7, e8, e9] at hr
  rw [hb, hb2, hexact] at hx
  exact ⟨hx, by rw [ht, e6b], hr⟩

end DJTrainer
